import Mathlib

/-!
Owner-prefix decorator of the object storage layer (`pkg/object/owner_prefix.go`).

A shallow embedding of `withOwner`, the decorator that rewrites logical chunk keys into
per-owner physical keys above an arbitrary `ObjectStorage`, together with the properties of
its key translation, its forwarding operations and its listing relay.

Conventions of the embedding:

* a Go `string` is a sequence of bytes; it is modelled as a list whose elements stand for the
  bytes (`GoString`).  `len` is the list length, `+` is append and `s[n:]` is `sliceFrom`,
  which fails (the run-time panic "slice bounds out of range") when `n > len s`;
* `uint64` values are naturals, reduced modulo `2 ^ 64` where the source can wrap;
* a Go `error` result is `Option GoError` (`none` is `nil`);
* the descriptors a backend returns are pointers: the `obj` and `PendingPart` structs live
  on a heap, by address, and the decorator rewrites their key through the pointer, so that
  a struct reached through two pointers of one result is rewritten twice.  A pointer can be
  nil, and an interface value can be nil;
* the program state (`World`) is the private state of the backend together with the heap;
  every method maps its arguments and the state before the call to its results and the
  state after it;
* a method that can panic returns `Option`, `none` being the panic.  A panic in the relay
  goroutine of `ListAll` is not recovered and ends the whole process, so it is the `none`
  of `ListAll` too;
* the channel of `ListAll` is the sequence of items its consumer receives, the relay being
  run to its end on the items the backend delivers; the capacity of the channel and the
  scheduling of the goroutines are not modelled.

The bytes of a string are written as characters; the code only ever compares a byte with
`/`, with `_` and with the digits and letters that `strconv.ParseUint` recognises.
-/

namespace OwnerPrefix

/-! ## Strings -/

/-- A Go string: a sequence of bytes. -/
abbrev GoString := List Char

/-- The bytes of a string literal (used for ASCII literals only). -/
def str (s : String) : GoString := s.data

/-- A Go slice `[]T`, as the sequence of its elements. -/
abbrev Slice (α : Type) := List α

/-- Slice expression `s[ln:]`: defined only when `ln ≤ len(s)`, otherwise the program panics. -/
def sliceFrom (s : GoString) (ln : Nat) : Option GoString :=
  if ln ≤ s.length then some (s.drop ln) else none

/-- Function `strings.Split(s, sep)` for a one-byte separator: the substrings between the
occurrences of `sep`; a string without separator (the empty one included) gives one field. -/
def Split : GoString → Char → List GoString
  | [], _ => [[]]
  | c :: cs, sep =>
    if c = sep then [] :: Split cs sep
    else (c :: (Split cs sep).headD []) :: (Split cs sep).tail

/-! ## `strconv.ParseUint(s, 10, 64)` -/

/-- The two error kinds of `strconv`. -/
inductive NumError
  | ErrSyntax
  | ErrRange
  deriving DecidableEq, Repr

/-- Largest `uint64`. -/
def maxUint64 : Nat := 2 ^ 64 - 1

/-- Constant `cutoff` of `ParseUint` for base 10: the smallest number whose tenfold
exceeds `maxUint64`. -/
def cutoff : Nat := maxUint64 / 10 + 1

/-- Function `lower(c)` of `strconv`: `c | ('x' - 'X')`. -/
def lower (c : Char) : Nat := c.toNat ||| 32

/-- Digit value that the `switch` of `ParseUint` assigns to a byte (`base0` is false for
base 10, so an underscore falls to the default branch); `none` is the default branch. -/
def digitVal (c : Char) : Option Nat :=
  if 48 ≤ c.toNat ∧ c.toNat ≤ 57 then some (c.toNat - 48)
  else if 97 ≤ lower c ∧ lower c ≤ 122 then some (lower c - 97 + 10)
  else none

/-- The digit loop of `ParseUint` with base 10 and bit size 64, started with accumulator `n`. -/
def parseLoop : GoString → Nat → Nat × Option NumError
  | [], n => (n, none)
  | c :: cs, n =>
    match digitVal c with
    | none => (0, some NumError.ErrSyntax)
    | some d =>
      if d ≥ 10 then (0, some NumError.ErrSyntax)
      else if n ≥ cutoff then (maxUint64, some NumError.ErrRange)
      else
        let n10 := n * 10 % 2 ^ 64
        let n1 := (n10 + d) % 2 ^ 64
        if n1 < n10 ∨ n1 > maxUint64 then (maxUint64, some NumError.ErrRange)
        else parseLoop cs n1

/-- Function `strconv.ParseUint(s, 10, 64)`: the value and the error. -/
def ParseUint (s : GoString) : Nat × Option NumError :=
  if s = [] then (0, some NumError.ErrSyntax) else parseLoop s 0

/-! ## The metadata collaborator and the key translation -/

/-- The part of `meta.Meta` the decorator uses. -/
structure Meta where
  GetChunkOwner : Nat → GoString

/-- Method `getOwner` (the two diagnostics it logs are not part of the result). -/
def getOwner (m : Meta) (key : GoString) : GoString :=
  let parts := Split key '/'
  if parts.length ≤ 1 then []
  else
    let parts := Split (parts.getLastD []) '_'
    if parts.length ≠ 3 then []
    else
      let chunkid := (ParseUint (parts.headD [])).1
      m.GetChunkOwner chunkid ++ str "/"

/-- The owner prefix that `getOwner` derives from the final segment of a key with a slash. -/
def segOwner (m : Meta) (seg : GoString) : GoString :=
  if (Split seg '_').length ≠ 3 then []
  else m.GetChunkOwner (ParseUint ((Split seg '_').headD [])).1 ++ str "/"

/-! ## Descriptors, the heap and the wrapped backend -/

/-- A Go `error` value. -/
structure GoError where
  msg : GoString
  deriving DecidableEq, Repr

/-- Content read from or written to the store (`io.Reader`, `io.ReadCloser`, `[]byte`). -/
abbrev Bytes := List Char

/-- An address on the heap. -/
abbrev Addr := Nat

/-- Struct `obj`: the key, and `info` for the fields besides the key (size, modification
time, ...), which the decorator never reads.  A `file` embeds an `obj`; it is located by
the address of that `obj`, its further fields play no part. -/
structure obj where
  key : GoString
  info : Nat
  deriving DecidableEq, Repr

/-- A non-nil value of the interface type `Object`, by its dynamic type: a pointer of type
`*obj`, a pointer of type `*file` (either can be the nil pointer, `none`), or a value of
any other type implementing the interface, with the key it reports. -/
inductive Object
  | objPtr (ptr : Option Addr)
  | filePtr (ptr : Option Addr)
  | other (key : GoString) (info : Nat)
  deriving DecidableEq, Repr

/-- Type `PendingPart`: one part of an unfinished multipart upload. -/
structure PendingPart where
  Key : GoString
  UploadID : GoString
  Created : Nat
  deriving DecidableEq, Repr

/-- Type `MultipartUpload`. -/
structure MultipartUpload where
  MinPartSize : Nat
  MaxCount : Nat
  UploadID : GoString
  deriving DecidableEq, Repr

/-- Type `Part`. -/
structure Part where
  Num : Int
  Size : Nat
  ETag : GoString
  deriving DecidableEq, Repr

/-- A receive-only channel of descriptors, seen from its consumer: the items it delivers,
in order (`none` is a nil item), and whether it is closed after the last of them. -/
structure Chan where
  items : List (Option Object)
  closed : Bool
  deriving DecidableEq, Repr

/-- The state of the program: the private state of the backend, the `obj` structs and the
`PendingPart` structs on the heap, and the address the next allocation of an `obj` is
given. -/
structure World (β : Type) where
  store : β
  objs : Addr → obj
  parts : Addr → PendingPart
  next : Addr

/-- Assignment `p.key = k` through a pointer to the `obj` at address `a`. -/
def World.setKey {β : Type} (w : World β) (a : Addr) (k : GoString) : World β :=
  { w with objs := fun x => if x = a then ⟨k, (w.objs a).info⟩ else w.objs x }

/-- Assignment `part.Key = k` through a pointer to the `PendingPart` at address `a`. -/
def World.setPartKey {β : Type} (w : World β) (a : Addr) (k : GoString) : World β :=
  { w with parts := fun x =>
      if x = a then ⟨k, (w.parts a).UploadID, (w.parts a).Created⟩ else w.parts x }

/-- Allocation `&obj{...}`: the address of the new struct and the state after. -/
def World.new {β : Type} (w : World β) (d : obj) : Addr × World β :=
  (w.next, { w with objs := fun x => if x = w.next then d else w.objs x, next := w.next + 1 })

/-- Method `Key()` of an interface value, read in the state `w` (the empty string stands
for the calls that cannot be made, on nil). -/
def keyOf {β : Type} (w : World β) : Option Object → GoString
  | some (Object.objPtr (some a)) => (w.objs a).key
  | some (Object.filePtr (some a)) => (w.objs a).key
  | some (Object.other k _) => k
  | _ => []

/-- Interface `ObjectStorage` over a backend with private state `β`.  `List` returns a slice
of interface values, `ListAll` a channel (`none` is the nil channel), `ListUploads` a slice
of pointers to `PendingPart` (`none` is the nil pointer). -/
structure ObjectStorage (β : Type) where
  Create : World β → Option GoError × World β
  Head : GoString → World β → (Option Object × Option GoError) × World β
  Get : GoString → Int → Int → World β → (Option Bytes × Option GoError) × World β
  Put : GoString → Bytes → World β → Option GoError × World β
  Delete : GoString → World β → Option GoError × World β
  List : GoString → GoString → Int → World β →
    (Slice (Option Object) × Option GoError) × World β
  ListAll : GoString → GoString → World β → (Option Chan × Option GoError) × World β
  CreateMultipartUpload : GoString → World β →
    (Option MultipartUpload × Option GoError) × World β
  UploadPart : GoString → GoString → Int → Bytes → World β →
    (Option Part × Option GoError) × World β
  AbortUpload : GoString → GoString → World β → World β
  CompleteUpload : GoString → GoString → Slice Part → World β → Option GoError × World β
  ListUploads : GoString → World β →
    (Slice (Option Addr) × GoString × Option GoError) × World β

/-! ## The decorator -/

/-- Type `withOwner`: the wrapped backend and the metadata collaborator. -/
structure withOwner (β : Type) where
  os : ObjectStorage β
  m : Meta

/-- Function `WithOwnerPrefix`. -/
def WithOwnerPrefix {β : Type} (os : ObjectStorage β) (m : Meta) : withOwner β := ⟨os, m⟩

/-- Method `getOwner` of the decorator. -/
def withOwner.getOwner {β : Type} (p : withOwner β) (key : GoString) : GoString :=
  OwnerPrefix.getOwner p.m key

/-- The type switch `case *obj: p.key = p.key[ln:]; case *file: p.key = p.key[ln:]` on one
interface value: the key is read and written through the pointer.  `none` is a panic, of
the slice expression or of the dereference of a nil pointer.  No case matches a nil
interface value or a value of another type. -/
def stripKey {β : Type} (ln : Nat) (o : Option Object) (w : World β) : Option (World β) :=
  match o with
  | some (Object.objPtr (some a)) => (sliceFrom (w.objs a).key ln).map (w.setKey a)
  | some (Object.filePtr (some a)) => (sliceFrom (w.objs a).key ln).map (w.setKey a)
  | some (Object.objPtr none) => none
  | some (Object.filePtr none) => none
  | some (Object.other _ _) => some w
  | none => some w

/-- The loop `for _, o := range objs { ... }` of `List`, in the order of the slice. -/
def stripAll {β : Type} (ln : Nat) : List (Option Object) → World β → Option (World β)
  | [], w => some w
  | o :: rest, w =>
    match stripKey ln o w with
    | none => none
    | some w1 => stripAll ln rest w1

/-- The loop `for _, part := range parts { part.Key = part.Key[ln:] }` of `ListUploads`:
every key is read and written through the pointer; a nil pointer panics. -/
def stripParts {β : Type} (ln : Nat) : List (Option Addr) → World β → Option (World β)
  | [], w => some w
  | none :: _, _ => none
  | some a :: rest, w =>
    match sliceFrom (w.parts a).Key ln with
    | none => none
    | some k => stripParts ln rest (w.setPartKey a k)

/-- The relay goroutine of `ListAll`, run on the items of the source: it rewrites each
non-nil item through its pointer and sends it to `r2`; it closes `r2` when the range loop
ends, which needs the source to be closed.  The result is the channel `r2` as its consumer
observes it and the state after the last item; `none` is a panic, which ends the
process. -/
def relay {β : Type} (ln : Nat) :
    List (Option Object) → Bool → World β → Option (Chan × World β)
  | [], srcClosed, w => some (⟨[], srcClosed⟩, w)
  | none :: rest, srcClosed, w =>
    (relay ln rest srcClosed w).map (fun r => (⟨none :: r.1.items, r.1.closed⟩, r.2))
  | some o :: rest, srcClosed, w =>
    match stripKey ln (some o) w with
    | none => none
    | some w1 =>
      (relay ln rest srcClosed w1).map (fun r => (⟨some o :: r.1.items, r.1.closed⟩, r.2))

/-- Method `Create`. -/
def withOwner.Create {β : Type} (p : withOwner β) (w : World β) : Option GoError × World β :=
  p.os.Create w

/-- Method `Head`; `none` is a panic. -/
def withOwner.Head {β : Type} (p : withOwner β) (key : GoString) (w : World β) :
    Option ((Option Object × Option GoError) × World β) :=
  match p.os.Head (p.getOwner key ++ key) w with
  | ((_, some err), w1) => some ((none, some err), w1)
  | ((o, none), w1) =>
    match stripKey (p.getOwner key).length o w1 with
    | none => none
    | some w2 => some ((o, none), w2)

/-- Method `Get`. -/
def withOwner.Get {β : Type} (p : withOwner β) (key : GoString) (off limit : Int)
    (w : World β) : (Option Bytes × Option GoError) × World β :=
  p.os.Get (p.getOwner key ++ key) off limit w

/-- Method `Put`. -/
def withOwner.Put {β : Type} (p : withOwner β) (key : GoString) (data : Bytes)
    (w : World β) : Option GoError × World β :=
  p.os.Put (p.getOwner key ++ key) data w

/-- Method `Delete`. -/
def withOwner.Delete {β : Type} (p : withOwner β) (key : GoString) (w : World β) :
    Option GoError × World β :=
  p.os.Delete (p.getOwner key ++ key) w

/-- Method `List`; `none` is a panic in the loop. -/
def withOwner.List {β : Type} (p : withOwner β) (pfx marker : GoString) (limit : Int)
    (w : World β) : Option ((Slice (Option Object) × Option GoError) × World β) :=
  let marker := if marker ≠ [] then p.getOwner marker ++ marker else marker
  match p.os.List (p.getOwner marker ++ pfx) marker limit w with
  | ((objs, err), w1) =>
    let ln := (p.getOwner pfx).length
    match stripAll ln objs w1 with
    | none => none
    | some w2 => some ((objs, err), w2)

/-- Method `ListAll` together with the run of its relay goroutine.  On an error the
backend's channel value is returned as it is and no goroutine is started; otherwise the
returned channel is the output `r2` of the relay.  Ranging over a nil channel blocks for
ever, so then nothing is delivered and `r2` stays open.  `none` is a panic of the relay,
which nothing recovers and which ends the process. -/
def withOwner.ListAll {β : Type} (p : withOwner β) (pfx marker : GoString) (w : World β) :
    Option ((Option Chan × Option GoError) × World β) :=
  let marker := if marker ≠ [] then p.getOwner marker ++ marker else marker
  match p.os.ListAll (p.getOwner marker ++ pfx) marker w with
  | ((r, some err), w1) => some ((r, some err), w1)
  | ((none, none), w1) => some ((some ⟨[], false⟩, none), w1)
  | ((some r, none), w1) =>
    let ln := (p.getOwner marker).length
    (relay ln r.items r.closed w1).map (fun x => ((some x.1, none), x.2))

/-- Method `CreateMultipartUpload`. -/
def withOwner.CreateMultipartUpload {β : Type} (p : withOwner β) (key : GoString)
    (w : World β) : (Option MultipartUpload × Option GoError) × World β :=
  p.os.CreateMultipartUpload (p.getOwner key ++ key) w

/-- Method `UploadPart`. -/
def withOwner.UploadPart {β : Type} (p : withOwner β) (key uploadID : GoString) (num : Int)
    (body : Bytes) (w : World β) : (Option Part × Option GoError) × World β :=
  p.os.UploadPart (p.getOwner key ++ key) uploadID num body w

/-- Method `AbortUpload`. -/
def withOwner.AbortUpload {β : Type} (p : withOwner β) (key uploadID : GoString)
    (w : World β) : World β :=
  p.os.AbortUpload (p.getOwner key ++ key) uploadID w

/-- Method `CompleteUpload`. -/
def withOwner.CompleteUpload {β : Type} (p : withOwner β) (key uploadID : GoString)
    (parts : Slice Part) (w : World β) : Option GoError × World β :=
  p.os.CompleteUpload (p.getOwner key ++ key) uploadID parts w

/-- Method `ListUploads`; `none` is a panic in the loop. -/
def withOwner.ListUploads {β : Type} (p : withOwner β) (marker : GoString) (w : World β) :
    Option ((Slice (Option Addr) × GoString × Option GoError) × World β) :=
  match p.os.ListUploads marker w with
  | ((parts, nextMarker, err), w1) =>
    match stripParts (p.getOwner marker).length parts w1 with
    | none => none
    | some w2 => some ((parts, nextMarker, err), w2)

/-! ## The key format, stated without the code's functions -/

/-- A decimal digit byte. -/
def isDigit (c : Char) : Bool := decide (48 ≤ c.toNat ∧ c.toNat ≤ 57)

/-- An unsigned decimal integer: one digit or more, nothing else. -/
def isNumber (s : GoString) : Bool := !s.isEmpty && s.all isDigit

/-- The number that the digits of `s` denote after the digits already read as `n`. -/
def decFold (n : Nat) (s : GoString) : Nat :=
  s.foldl (fun a c => a * 10 + (c.toNat - 48)) n

/-- The number a string of decimal digits denotes. -/
def decVal (s : GoString) : Nat := decFold 0 s

/-- The final `/`-delimited segment of a key: what follows its last slash (the whole key
when it has none). -/
def finalSegment (key : GoString) : GoString :=
  (key.reverse.takeWhile (fun c => c ≠ '/')).reverse

/-- Reads one unsigned decimal integer off the front of a string: the rest, if there is one. -/
def eatNumber (s : GoString) : Option GoString :=
  if (s.takeWhile isDigit).isEmpty then none else some (s.dropWhile isDigit)

/-- The shape `<digits>_<digits>_<digits>`. -/
def chunkShaped (seg : GoString) : Bool :=
  match eatNumber seg with
  | some ('_' :: r1) =>
    match eatNumber r1 with
    | some ('_' :: r2) => eatNumber r2 == some []
    | _ => false
  | _ => false

/-! ## Concrete backends -/

/-- A state with an empty heap around the private state `s` of a backend. -/
def emptyWorld {β : Type} (s : β) : World β :=
  ⟨s, fun _ => ⟨[], 0⟩, fun _ => ⟨[], [], 0⟩, 0⟩

/-- A state whose heap holds the given structs at the addresses 0, 1, 2, ... -/
def worldOf {β : Type} (s : β) (os : List obj) (ps : List PendingPart) : World β :=
  ⟨s, fun a => os.getD a ⟨[], 0⟩, fun a => ps.getD a ⟨[], [], 0⟩, os.length⟩

/-- Allocation of one `obj` per element, in order: the pointers of type `*obj` and the
state after. -/
def newAll {β : Type} : List obj → World β → List (Option Object) × World β
  | [], w => ([], w)
  | d :: ds, w =>
    (some (Object.objPtr (some w.next)) :: (newAll ds (w.new d).2).1, (newAll ds (w.new d).2).2)

/-- Private state of the map backend: the stored keys with their content, most recent
first. -/
abbrev MemState := List (GoString × Bytes)

/-- Content stored at a key of the map backend. -/
def memLookup (key : GoString) : MemState → Option Bytes
  | [] => none
  | (k, d) :: rest => if k = key then some d else memLookup key rest

/-- Error of the map backend for a key that is not stored. -/
def errNotExist : GoError := ⟨str "not exist"⟩

/-- Error of the map backend for an operation it does not offer. -/
def errNotSupported : GoError := ⟨str "not supported"⟩

/-- The part of a content that `Get` with offset `off` and limit `limit` reads (a limit that
is not positive reads to the end). -/
def readRange (d : Bytes) (off limit : Int) : Bytes :=
  let r := d.drop off.toNat
  if 0 < limit then r.take limit.toNat else r

/-- The stored entries that a listing with the given prefix and marker selects: the keys
that begin with the prefix and come after the marker. -/
def memSelect (pfx marker : GoString) (s : MemState) : MemState :=
  s.filter (fun e => pfx.isPrefixOf e.1 && decide (marker < e.1))

/-- The descriptors of a listing of the map backend, before they are allocated. -/
def memListed (pfx marker : GoString) (s : MemState) : List obj :=
  (memSelect pfx marker s).map (fun e => (⟨e.1, e.2.length⟩ : obj))

/-- A map backend: a map from physical key to content.  `Put` stores at the key it is given,
`Get` and `Head` read the key they are given, `Head` answers with a pointer to a new `obj`
carrying the key it was asked for, a listing answers with pointers to new `obj` structs for
stored keys that begin with the prefix it was asked for. -/
def memStore : ObjectStorage MemState where
  Create := fun w => (none, w)
  Head := fun key w =>
    match memLookup key w.store with
    | some d => ((some (Object.objPtr (some w.next)), none), (w.new ⟨key, d.length⟩).2)
    | none => ((none, some errNotExist), w)
  Get := fun key off limit w =>
    match memLookup key w.store with
    | some d => ((some (readRange d off limit), none), w)
    | none => ((none, some errNotExist), w)
  Put := fun key data w =>
    (none, { w with store := (key, data) :: w.store.filter (fun e => e.1 ≠ key) })
  Delete := fun key w => (none, { w with store := w.store.filter (fun e => e.1 ≠ key) })
  List := fun pfx marker limit w =>
    (((newAll ((memListed pfx marker w.store).take limit.toNat) w).1, none),
      (newAll ((memListed pfx marker w.store).take limit.toNat) w).2)
  ListAll := fun pfx marker w =>
    ((some ⟨(newAll (memListed pfx marker w.store) w).1, true⟩, none),
      (newAll (memListed pfx marker w.store) w).2)
  CreateMultipartUpload := fun _ w => ((none, some errNotSupported), w)
  UploadPart := fun _ _ _ _ w => ((none, some errNotSupported), w)
  AbortUpload := fun _ _ w => w
  CompleteUpload := fun _ _ _ w => (some errNotSupported, w)
  ListUploads := fun _ w => (([], [], none), w)

/-- Answers of a scripted backend; its pointers are addresses of the heap it is run on. -/
structure Script where
  err : Option GoError
  object : Option Object
  data : Option Bytes
  objs : Slice (Option Object)
  chan : Option Chan
  upload : Option MultipartUpload
  part : Option Part
  pending : Slice (Option Addr)
  nextMarker : GoString

/-- An error of the scripted backend. -/
def errBackend : GoError := ⟨str "backend failure"⟩

/-- The script with no error and empty results. -/
def emptyScript : Script := ⟨none, none, none, [], none, none, none, [], []⟩

/-- A scripted backend: every method answers with the values of the script, whatever its
arguments, and leaves the state as it is. -/
def scriptStore : ObjectStorage Script where
  Create := fun w => (w.store.err, w)
  Head := fun _ w => ((w.store.object, w.store.err), w)
  Get := fun _ _ _ w => ((w.store.data, w.store.err), w)
  Put := fun _ _ w => (w.store.err, w)
  Delete := fun _ w => (w.store.err, w)
  List := fun _ _ _ w => ((w.store.objs, w.store.err), w)
  ListAll := fun _ _ w => ((w.store.chan, w.store.err), w)
  CreateMultipartUpload := fun _ w => ((w.store.upload, w.store.err), w)
  UploadPart := fun _ _ _ _ w => ((w.store.part, w.store.err), w)
  AbortUpload := fun _ _ w => w
  CompleteUpload := fun _ _ _ w => (w.store.err, w)
  ListUploads := fun _ w => ((w.store.pending, w.store.nextMarker, w.store.err), w)

/-- Metadata in which every chunk belongs to the owner `alice`. -/
def aliceMeta : Meta := ⟨fun _ => str "alice"⟩

/-- Metadata in which every chunk belongs to an owner named by a UUID. -/
def uuidMeta : Meta := ⟨fun _ => str "7f3c2a10-5b7e-4c1d-9a60-0d2f4e8b1c35"⟩

/-- Metadata that tells chunk 0 and the other chunks apart. -/
def zeroMeta : Meta := ⟨fun n => if n = 0 then str "zero" else str "other"⟩

/-- A listing call received by the recording backend: the prefix and the marker it was
given, and whether the call was `ListAll`. -/
structure ListCall where
  pfx : GoString
  marker : GoString
  all : Bool
  deriving DecidableEq, Repr

/-- A recording backend: its private state is the sequence of listing calls it has
received; every method succeeds with an empty result. -/
def traceStore : ObjectStorage (List ListCall) where
  Create := fun w => (none, w)
  Head := fun _ w => ((none, none), w)
  Get := fun _ _ _ w => ((none, none), w)
  Put := fun _ _ w => (none, w)
  Delete := fun _ w => (none, w)
  List := fun pfx marker _ w =>
    (([], none), { w with store := w.store ++ [⟨pfx, marker, false⟩] })
  ListAll := fun pfx marker w =>
    ((some ⟨[], true⟩, none), { w with store := w.store ++ [⟨pfx, marker, true⟩] })
  CreateMultipartUpload := fun _ w => ((none, none), w)
  UploadPart := fun _ _ _ _ w => ((none, none), w)
  AbortUpload := fun _ _ w => w
  CompleteUpload := fun _ _ _ w => (none, w)
  ListUploads := fun _ w => (([], [], none), w)

/-! ## What the rewriting of a result is to achieve -/

/-- The address behind an interface value of type `*obj` or `*file`. -/
def addrOf : Option Object → Option Addr
  | some (Object.objPtr p) => p
  | some (Object.filePtr p) => p
  | _ => none

/-- The addresses of the `obj` structs that the descriptors of type `*obj` and `*file` of a
result point to, in the order of the result. -/
def nativeAddrs (items : List (Option Object)) : List Addr := items.filterMap addrOf

/-- Whether an interface value is a nil pointer of type `*obj` or `*file`. -/
def isNilPointer : Option Object → Bool
  | some (Object.objPtr none) => true
  | some (Object.filePtr none) => true
  | _ => false

/-- The heap in which the key of every `obj` at one of the given addresses has lost its
first `ln` bytes, and nothing else has changed. -/
def shortenAt (ln : Nat) (addrs : List Addr) (objs : Addr → obj) : Addr → obj :=
  fun a => if a ∈ addrs then ⟨(objs a).key.drop ln, (objs a).info⟩ else objs a

/-- The heap in which the key of every `PendingPart` at one of the given addresses has lost
its first `ln` bytes, and nothing else has changed. -/
def shortenPartsAt (ln : Nat) (addrs : List Addr) (parts : Addr → PendingPart) :
    Addr → PendingPart :=
  fun a =>
    if a ∈ addrs then ⟨(parts a).Key.drop ln, (parts a).UploadID, (parts a).Created⟩
    else parts a

/-! ## Facts about `Split` -/

theorem Split_ne_nil (s : GoString) (sep : Char) : Split s sep ≠ [] := by
  cases s with
  | nil => simp [Split]
  | cons c cs => by_cases h : c = sep <;> simp [Split, h]

theorem Split_cons_ne (c sep : Char) (cs : GoString) (h : c ≠ sep) :
    Split (c :: cs) sep = (c :: (Split cs sep).headD []) :: (Split cs sep).tail := by
  simp [Split, h]

theorem Split_of_not_mem (s : GoString) (sep : Char) (h : sep ∉ s) : Split s sep = [s] := by
  induction s with
  | nil => rfl
  | cons c cs ih =>
    have hc : c ≠ sep := fun e => h (by simp [e])
    have hcs : sep ∉ cs := fun e => h (by simp [e])
    simp [Split, hc, ih hcs]

theorem Split_append_sep (a b : GoString) (sep : Char) :
    Split (a ++ sep :: b) sep = Split a sep ++ Split b sep := by
  induction a with
  | nil => simp [Split]
  | cons c cs ih =>
    by_cases hc : c = sep
    · simp [Split, hc, ih]
    · have hne := Split_ne_nil cs sep
      rw [List.cons_append, Split_cons_ne _ _ _ hc, Split_cons_ne _ _ _ hc, ih]
      cases hsp : Split cs sep with
      | nil => exact absurd hsp hne
      | cons x xs => simp

theorem Split_length (s : GoString) (sep : Char) :
    (Split s sep).length = s.count sep + 1 := by
  induction s with
  | nil => rfl
  | cons c cs ih =>
    by_cases hc : c = sep
    · simp [Split, hc, ih]
    · have hne := Split_ne_nil cs sep
      rw [Split_cons_ne _ _ _ hc, List.count_cons_of_ne (fun e => hc e.symm)]
      cases hsp : Split cs sep with
      | nil => exact absurd hsp hne
      | cons x xs => rw [hsp] at ih; simpa using ih

/-- A string containing the separator splits at its last occurrence. -/
theorem exists_last_sep (s : GoString) (sep : Char) (h : sep ∈ s) :
    ∃ a b, s = a ++ sep :: b ∧ sep ∉ b := by
  induction s with
  | nil => simp at h
  | cons c cs ih =>
    by_cases hcs : sep ∈ cs
    · obtain ⟨a, b, hab, hb⟩ := ih hcs
      exact ⟨c :: a, b, by simp [hab], hb⟩
    · have hc : sep = c := by
        rcases List.mem_cons.1 h with h1 | h1
        · exact h1
        · exact absurd h1 hcs
      exact ⟨[], cs, by simp [hc], hcs⟩

theorem Split_getLastD (a b : GoString) (sep : Char) (hb : sep ∉ b) :
    (Split (a ++ sep :: b) sep).getLastD [] = b := by
  rw [Split_append_sep, Split_of_not_mem b sep hb]
  simp [List.getLastD_concat]

theorem Split_length_le_one_iff (s : GoString) (sep : Char) :
    (Split s sep).length ≤ 1 ↔ sep ∉ s := by
  rw [Split_length]
  constructor
  · intro h hm
    have := List.count_pos_iff.2 hm
    omega
  · intro h
    rw [List.count_eq_zero_of_not_mem h]

/-! ## Facts about `getOwner` -/

theorem getOwner_of_no_slash (m : Meta) (key : GoString) (h : '/' ∉ key) :
    getOwner m key = [] := by
  have := (Split_length_le_one_iff key '/').2 h
  simp [getOwner, this]

theorem getOwner_of_last_segment (m : Meta) (a seg : GoString) (h : '/' ∉ seg) :
    getOwner m (a ++ '/' :: seg) = segOwner m seg := by
  have hlen : ¬ (Split (a ++ '/' :: seg) '/').length ≤ 1 := by
    rw [Split_length_le_one_iff]; simp
  unfold getOwner segOwner
  simp only [hlen, if_false, Split_getLastD a seg '/' h]

/-- Prepending anything to a key that has a slash leaves the resolved owner prefix as it is. -/
theorem getOwner_append_left (m : Meta) (x key : GoString) (h : '/' ∈ key) :
    getOwner m (x ++ key) = getOwner m key := by
  obtain ⟨a, b, hab, hb⟩ := exists_last_sep key '/' h
  rw [hab, getOwner_of_last_segment m a b hb, ← List.append_assoc,
    getOwner_of_last_segment m (x ++ a) b hb]

/-- Translating a marker does not change the owner prefix it resolves to. -/
theorem getOwner_translated (m : Meta) (marker : GoString) :
    getOwner m (getOwner m marker ++ marker) = getOwner m marker := by
  by_cases h : '/' ∈ marker
  · exact getOwner_append_left m _ marker h
  · have h0 := getOwner_of_no_slash m marker h
    rw [h0, List.nil_append, h0]

theorem segOwner_ne_nil_iff (m : Meta) (seg : GoString) :
    segOwner m seg ≠ [] ↔ seg.count '_' = 2 := by
  unfold segOwner
  rw [Split_length]
  by_cases h : seg.count '_' = 2
  · simp [h, str]
  · simp [h]

theorem Split_three_fields (f1 f2 f3 : GoString) (h1 : '_' ∉ f1) (h2 : '_' ∉ f2)
    (h3 : '_' ∉ f3) : Split (f1 ++ '_' :: (f2 ++ '_' :: f3)) '_' = [f1, f2, f3] := by
  rw [Split_append_sep, Split_append_sep, Split_of_not_mem f1 _ h1, Split_of_not_mem f2 _ h2,
    Split_of_not_mem f3 _ h3]
  rfl

/-- A key that passes both structural checks resolves to the owner of the chunk id that
`ParseUint` returns for its first field. -/
theorem getOwner_of_fields (m : Meta) (dir f1 f2 f3 : GoString)
    (h1 : '_' ∉ f1 ∧ '/' ∉ f1) (h2 : '_' ∉ f2 ∧ '/' ∉ f2) (h3 : '_' ∉ f3 ∧ '/' ∉ f3) :
    getOwner m (dir ++ '/' :: (f1 ++ '_' :: (f2 ++ '_' :: f3))) =
      m.GetChunkOwner (ParseUint f1).1 ++ str "/" := by
  have hseg : '/' ∉ f1 ++ '_' :: (f2 ++ '_' :: f3) := by
    simp [h1.2, h2.2, h3.2]
  rw [getOwner_of_last_segment m dir _ hseg]
  unfold segOwner
  rw [Split_three_fields f1 f2 f3 h1.1 h2.1 h3.1]
  simp

/-! ## Facts about `ParseUint` -/

theorem decFold_cons (n : Nat) (c : Char) (s : GoString) :
    decFold n (c :: s) = decFold (n * 10 + (c.toNat - 48)) s := rfl

theorem le_decFold (s : GoString) (n : Nat) : n ≤ decFold n s := by
  induction s generalizing n with
  | nil => exact Nat.le_refl _
  | cons c cs ih =>
    rw [decFold_cons]
    have := ih (n * 10 + (c.toNat - 48))
    omega

theorem digitVal_of_isDigit (c : Char) (h : isDigit c = true) :
    digitVal c = some (c.toNat - 48) ∧ c.toNat - 48 < 10 := by
  have h1 : 48 ≤ c.toNat ∧ c.toNat ≤ 57 := by simpa [isDigit] using h
  refine ⟨by simp [digitVal, h1], by omega⟩

theorem parseLoop_of_not_isDigit (c : Char) (rest : GoString) (n : Nat)
    (h : isDigit c = false) : parseLoop (c :: rest) n = (0, some NumError.ErrSyntax) := by
  have h1 : ¬ (48 ≤ c.toNat ∧ c.toNat ≤ 57) := by simpa [isDigit] using h
  unfold parseLoop digitVal
  by_cases h2 : 97 ≤ lower c ∧ lower c ≤ 122
  · simp [h1, h2]
  · simp [h1, h2]

/-- One step of the digit loop on a digit that keeps the value in range. -/
theorem parseLoop_step (c : Char) (cs : GoString) (n : Nat) (hc : isDigit c = true)
    (hfit : n * 10 + (c.toNat - 48) < 2 ^ 64) :
    parseLoop (c :: cs) n = parseLoop cs (n * 10 + (c.toNat - 48)) := by
  obtain ⟨hd, hlt⟩ := digitVal_of_isDigit c hc
  have hcut : ¬ n ≥ cutoff := by unfold cutoff maxUint64; omega
  have h10 : n * 10 % 2 ^ 64 = n * 10 := Nat.mod_eq_of_lt (by omega)
  have h1 : (n * 10 + (c.toNat - 48)) % 2 ^ 64 = n * 10 + (c.toNat - 48) :=
    Nat.mod_eq_of_lt hfit
  have hno : ¬ (n * 10 + (c.toNat - 48) < n * 10 ∨ n * 10 + (c.toNat - 48) > maxUint64) := by
    unfold maxUint64; omega
  rw [parseLoop]
  simp only [hd, h10, h1]
  simp only [hcut, hno, if_false, Nat.not_le.2 hlt, ge_iff_le]

/-- One step of the digit loop on a digit that takes the value out of range. -/
theorem parseLoop_overflow (c : Char) (cs : GoString) (n : Nat) (hc : isDigit c = true)
    (hn : n < 2 ^ 64) (hover : 2 ^ 64 ≤ n * 10 + (c.toNat - 48)) :
    parseLoop (c :: cs) n = (maxUint64, some NumError.ErrRange) := by
  obtain ⟨hd, hlt⟩ := digitVal_of_isDigit c hc
  rw [parseLoop]
  simp only [hd]
  by_cases hcut : n ≥ cutoff
  · simp only [hcut, if_true, Nat.not_le.2 hlt, ge_iff_le, if_false]
  · have h10 : n * 10 % 2 ^ 64 = n * 10 :=
      Nat.mod_eq_of_lt (by unfold cutoff maxUint64 at hcut; omega)
    have hwrap : (n * 10 + (c.toNat - 48)) % 2 ^ 64 < n * 10 := by
      have hcut1 : n * 10 < 2 ^ 64 := by unfold cutoff maxUint64 at hcut; omega
      have : (n * 10 + (c.toNat - 48)) % 2 ^ 64 = n * 10 + (c.toNat - 48) - 2 ^ 64 := by
        rw [Nat.mod_eq_sub_mod hover]
        exact Nat.mod_eq_of_lt (by omega)
      omega
    simp only [h10, hcut, if_false, Nat.not_le.2 hlt, ge_iff_le, hwrap, true_or, if_true]

/-- Digits whose value stays in range are all consumed. -/
theorem parseLoop_digits (ds rest : GoString) (n : Nat) (hd : ∀ c ∈ ds, isDigit c = true)
    (hfit : decFold n ds < 2 ^ 64) :
    parseLoop (ds ++ rest) n = parseLoop rest (decFold n ds) := by
  induction ds generalizing n with
  | nil => rfl
  | cons c cs ih =>
    have hc : isDigit c = true := hd c (by simp)
    have hcs : ∀ x ∈ cs, isDigit x = true := fun x hx => hd x (by simp [hx])
    rw [decFold_cons] at hfit
    have hle := le_decFold cs (n * 10 + (c.toNat - 48))
    rw [List.cons_append, parseLoop_step c _ n hc (by omega), ih _ hcs hfit, decFold_cons]

/-- Digits whose value leaves the range end the loop with the range error. -/
theorem parseLoop_range (ds rest : GoString) (n : Nat) (hd : ∀ c ∈ ds, isDigit c = true)
    (hn : n < 2 ^ 64) (hover : 2 ^ 64 ≤ decFold n ds) :
    parseLoop (ds ++ rest) n = (maxUint64, some NumError.ErrRange) := by
  induction ds generalizing n with
  | nil => exact absurd hover (by simpa [decFold] using hn)
  | cons c cs ih =>
    have hc : isDigit c = true := hd c (by simp)
    have hcs : ∀ x ∈ cs, isDigit x = true := fun x hx => hd x (by simp [hx])
    rw [decFold_cons] at hover
    by_cases hstep : n * 10 + (c.toNat - 48) < 2 ^ 64
    · rw [List.cons_append, parseLoop_step c _ n hc hstep]
      exact ih _ hcs hstep hover
    · rw [List.cons_append]
      exact parseLoop_overflow c _ n hc hn (by omega)

/-- A non-empty string of digits denoting a 64-bit value parses to that value. -/
theorem ParseUint_digits (s : GoString) (hne : s ≠ []) (hd : ∀ c ∈ s, isDigit c = true)
    (hfit : decVal s < 2 ^ 64) : ParseUint s = (decVal s, none) := by
  have := parseLoop_digits s [] 0 hd hfit
  rw [List.append_nil] at this
  simp only [ParseUint, hne, if_false, this]
  rfl

/-- Digits in range followed by a byte that is no digit: the syntax error, with value 0. -/
theorem ParseUint_syntax (ds rest : GoString) (c : Char) (hd : ∀ x ∈ ds, isDigit x = true)
    (hc : isDigit c = false) (hfit : decVal ds < 2 ^ 64) :
    ParseUint (ds ++ c :: rest) = (0, some NumError.ErrSyntax) := by
  have hne : ds ++ c :: rest ≠ [] := by simp
  simp only [ParseUint, hne, if_false]
  rw [parseLoop_digits ds _ 0 hd hfit]
  exact parseLoop_of_not_isDigit c rest _ hc

/-- Leading digits out of range: the range error, with the largest 64-bit value. -/
theorem ParseUint_range (ds rest : GoString) (hd : ∀ x ∈ ds, isDigit x = true)
    (hover : 2 ^ 64 ≤ decVal ds) :
    ParseUint (ds ++ rest) = (maxUint64, some NumError.ErrRange) := by
  have hne : ds ++ rest ≠ [] := by
    intro h
    have : ds = [] := (List.append_eq_nil.1 h).1
    rw [this] at hover
    simp [decVal, decFold] at hover
  simp only [ParseUint, hne, if_false]
  exact parseLoop_range ds rest 0 hd (by norm_num) hover

theorem isNumber_iff (s : GoString) :
    isNumber s = true ↔ s ≠ [] ∧ ∀ c ∈ s, isDigit c = true := by
  cases s <;> simp [isNumber]

theorem not_mem_of_isNumber (s : GoString) (h : isNumber s = true) : '_' ∉ s ∧ '/' ∉ s := by
  have hd := ((isNumber_iff s).1 h).2
  constructor
  · intro hm
    exact absurd (hd _ hm) (by decide)
  · intro hm
    exact absurd (hd _ hm) (by decide)

theorem sliceFrom_append_length (a b : GoString) : sliceFrom (a ++ b) a.length = some b := by
  simp [sliceFrom]

theorem dropWhile_head_false (q : Char → Bool) (l r : GoString) (c : Char)
    (h : l.dropWhile q = c :: r) : q c = false := by
  induction l with
  | nil => simp at h
  | cons x xs ih =>
    by_cases hx : q x = true
    · rw [List.dropWhile_cons_of_pos hx] at h
      exact ih h
    · rw [List.dropWhile_cons_of_neg hx] at h
      have : x = c := (List.cons.inj h).1
      rw [← this]
      simpa using hx

/-! ## Facts about the heap -/

theorem World.setKey_same {β : Type} (w : World β) (a : Addr) :
    w.setKey a (w.objs a).key = w := by
  cases w with
  | mk store objs parts next =>
    simp only [World.setKey]
    congr
    funext x
    by_cases hx : x = a
    · subst hx; simp
    · simp [hx]

theorem World.setPartKey_same {β : Type} (w : World β) (a : Addr) :
    w.setPartKey a (w.parts a).Key = w := by
  cases w with
  | mk store objs parts next =>
    simp only [World.setPartKey]
    congr
    funext x
    by_cases hx : x = a
    · subst hx; simp
    · simp [hx]

/-- Slicing at 0 changes nothing; it still dereferences the pointer. -/
theorem stripKey_zero {β : Type} (o : Option Object) (w : World β) :
    stripKey 0 o w = if isNilPointer o = true then none else some w := by
  rcases o with _ | (p | p | ⟨k, i⟩)
  · rfl
  · cases p <;> simp [stripKey, isNilPointer, sliceFrom, World.setKey_same]
  · cases p <;> simp [stripKey, isNilPointer, sliceFrom, World.setKey_same]
  · rfl

theorem stripAll_zero {β : Type} (items : List (Option Object)) (w : World β) :
    stripAll 0 items w = if items.any isNilPointer = true then none else some w := by
  induction items with
  | nil => rfl
  | cons o rest ih =>
    by_cases ho : isNilPointer o = true
    · simp [stripAll, stripKey_zero, ho]
    · simp [stripAll, stripKey_zero, ho, ih]

theorem stripKey_of_not_native {β : Type} (ln : Nat) (o : Option Object) (w : World β)
    (hnil : isNilPointer o = false) (h : addrOf o = none) : stripKey ln o w = some w := by
  rcases o with _ | (p | p | ⟨k, i⟩)
  · rfl
  · cases p <;> simp [addrOf, isNilPointer] at h hnil
  · cases p <;> simp [addrOf, isNilPointer] at h hnil
  · rfl

theorem stripKey_of_native {β : Type} (ln : Nat) (o : Option Object) (w : World β) (a : Addr)
    (h : addrOf o = some a) (hlong : ln ≤ (w.objs a).key.length) :
    stripKey ln o w = some (w.setKey a ((w.objs a).key.drop ln)) := by
  rcases o with _ | (p | p | ⟨k, i⟩)
  · simp [addrOf] at h
  · simp only [addrOf] at h; subst h; simp [stripKey, sliceFrom, hlong]
  · simp only [addrOf] at h; subst h; simp [stripKey, sliceFrom, hlong]
  · simp [addrOf] at h

theorem shortenAt_cons_setKey {β : Type} (ln : Nat) (w : World β) (a : Addr)
    (rest : List Addr) (ha : a ∉ rest) :
    shortenAt ln rest (w.setKey a ((w.objs a).key.drop ln)).objs
      = shortenAt ln (a :: rest) w.objs := by
  funext x
  by_cases hx : x = a
  · subst hx
    simp [shortenAt, ha, World.setKey]
  · by_cases hr : x ∈ rest <;> simp [shortenAt, World.setKey, hx, hr]

/-- The loop of `List` on a result without nil pointers whose `*obj` and `*file` pointers are
pairwise distinct and point to keys of at least `ln` bytes: every such key loses its first
`ln` bytes, and nothing else changes. -/
theorem stripAll_of_distinct {β : Type} (ln : Nat) (items : List (Option Object))
    (w : World β) (hnil : items.any isNilPointer = false) (hd : (nativeAddrs items).Nodup)
    (hlong : ∀ a ∈ nativeAddrs items, ln ≤ (w.objs a).key.length) :
    stripAll ln items w = some { w with objs := shortenAt ln (nativeAddrs items) w.objs } := by
  induction items generalizing w with
  | nil =>
    have : shortenAt ln (nativeAddrs []) w.objs = w.objs := by
      funext x; simp [shortenAt, nativeAddrs]
    simp [stripAll, this]
  | cons o rest ih =>
    have ho : isNilPointer o = false := by
      simp only [List.any_cons, Bool.or_eq_false_iff] at hnil; exact hnil.1
    have hrest : rest.any isNilPointer = false := by
      simp only [List.any_cons, Bool.or_eq_false_iff] at hnil; exact hnil.2
    cases hao : addrOf o with
    | none =>
      have hna : nativeAddrs (o :: rest) = nativeAddrs rest := by
        simp [nativeAddrs, List.filterMap_cons, hao]
      rw [hna] at hd hlong ⊢
      simp only [stripAll, stripKey_of_not_native ln o w ho hao]
      exact ih w hrest hd hlong
    | some a =>
      have hna : nativeAddrs (o :: rest) = a :: nativeAddrs rest := by
        simp [nativeAddrs, List.filterMap_cons, hao]
      rw [hna] at hd hlong ⊢
      have hanot : a ∉ nativeAddrs rest := (List.nodup_cons.1 hd).1
      have hla : ln ≤ (w.objs a).key.length := hlong a (by simp)
      simp only [stripAll, stripKey_of_native ln o w a hao hla]
      have hlong1 : ∀ b ∈ nativeAddrs rest,
          ln ≤ ((w.setKey a ((w.objs a).key.drop ln)).objs b).key.length := by
        intro b hb
        have hba : b ≠ a := fun e => hanot (e ▸ hb)
        simpa [World.setKey, hba] using hlong b (List.mem_cons_of_mem _ hb)
      rw [ih _ hrest (List.nodup_cons.1 hd).2 hlong1, shortenAt_cons_setKey ln w a _ hanot]
      rfl

/-- The relay processes the items as the loop of `List` does and delivers them as they
are. -/
theorem relay_eq_stripAll {β : Type} (ln : Nat) (items : List (Option Object))
    (closed : Bool) (w : World β) :
    relay ln items closed w = (stripAll ln items w).map (fun w1 => (⟨items, closed⟩, w1)) := by
  induction items generalizing w with
  | nil => rfl
  | cons o rest ih =>
    cases o with
    | none => simp [relay, stripAll, stripKey, ih, Option.map_map, Function.comp_def]
    | some ob =>
      cases hst : stripKey ln (some ob) w with
      | none => simp [relay, stripAll, hst]
      | some w1 => simp [relay, stripAll, hst, ih, Option.map_map, Function.comp_def]

theorem shortenPartsAt_cons_setPartKey {β : Type} (ln : Nat) (w : World β) (a : Addr)
    (rest : List Addr) (ha : a ∉ rest) :
    shortenPartsAt ln rest (w.setPartKey a ((w.parts a).Key.drop ln)).parts
      = shortenPartsAt ln (a :: rest) w.parts := by
  funext x
  by_cases hx : x = a
  · subst hx
    simp [shortenPartsAt, ha, World.setPartKey]
  · by_cases hr : x ∈ rest <;> simp [shortenPartsAt, World.setPartKey, hx, hr]

/-- The loop of `ListUploads` on non-nil, pairwise distinct pointers to keys of at least `ln`
bytes: every key loses its first `ln` bytes, and nothing else changes. -/
theorem stripParts_of_distinct {β : Type} (ln : Nat) (parts : List (Option Addr))
    (w : World β) (hnil : none ∉ parts) (hd : (parts.filterMap id).Nodup)
    (hlong : ∀ a, some a ∈ parts → ln ≤ (w.parts a).Key.length) :
    stripParts ln parts w
      = some { w with parts := shortenPartsAt ln (parts.filterMap id) w.parts } := by
  induction parts generalizing w with
  | nil =>
    have : shortenPartsAt ln [] w.parts = w.parts := by
      funext x; simp [shortenPartsAt]
    simp [stripParts, this]
  | cons o rest ih =>
    cases o with
    | none => exact absurd (List.mem_cons_self _ _) hnil
    | some a =>
      have hrest : none ∉ rest := fun h => hnil (List.mem_cons_of_mem _ h)
      have hfm : (some a :: rest).filterMap id = a :: rest.filterMap id := by simp
      rw [hfm] at hd ⊢
      have hanot : a ∉ rest.filterMap id := (List.nodup_cons.1 hd).1
      have hla : ln ≤ (w.parts a).Key.length := hlong a (by simp)
      have hlong1 : ∀ b, some b ∈ rest →
          ln ≤ ((w.setPartKey a ((w.parts a).Key.drop ln)).parts b).Key.length := by
        intro b hb
        have hba : b ≠ a := by
          intro e
          apply hanot
          rw [← e]
          exact List.mem_filterMap.2 ⟨some b, hb, rfl⟩
        simpa [World.setPartKey, hba] using hlong b (List.mem_cons_of_mem _ hb)
      simp only [stripParts, sliceFrom, hla, if_true]
      rw [ih _ hrest (List.nodup_cons.1 hd).2 hlong1,
        shortenPartsAt_cons_setPartKey ln w a _ hanot]
      rfl

theorem stripParts_zero {β : Type} (parts : List (Option Addr)) (w : World β)
    (hnil : none ∉ parts) : stripParts 0 parts w = some w := by
  induction parts with
  | nil => rfl
  | cons o rest ih =>
    cases o with
    | none => exact absurd (List.mem_cons_self _ _) hnil
    | some a =>
      simp only [stripParts, sliceFrom, Nat.zero_le, if_true, List.drop_zero,
        World.setPartKey_same]
      exact ih (fun h => hnil (List.mem_cons_of_mem _ h))

/-- Allocations leave the structs at the addresses already handed out as they are. -/
theorem newAll_objs_lt {β : Type} (ds : List obj) (w : World β) (x : Addr)
    (hx : x < w.next) : (newAll ds w).2.objs x = w.objs x := by
  induction ds generalizing w with
  | nil => rfl
  | cons d rest ih =>
    have h1 : x < (w.new d).2.next := Nat.lt_succ_of_lt hx
    have hne : x ≠ w.next := Nat.ne_of_lt hx
    simp only [newAll]
    rw [ih (w.new d).2 h1]
    simp [World.new, hne]

/-- Every descriptor that `newAll` hands out carries the key of one of the given structs. -/
theorem newAll_keys {β : Type} (ds : List obj) (w : World β) :
    ∀ o ∈ (newAll ds w).1, ∃ d ∈ ds, keyOf (newAll ds w).2 o = d.key := by
  induction ds generalizing w with
  | nil => intro o ho; simp [newAll] at ho
  | cons d rest ih =>
    intro o ho
    simp only [newAll, List.mem_cons] at ho
    rcases ho with ho | ho
    · refine ⟨d, by simp, ?_⟩
      subst ho
      simp only [newAll, keyOf]
      rw [newAll_objs_lt rest (w.new d).2 w.next (by simp [World.new])]
      simp [World.new]
    · obtain ⟨d1, hd1, hk⟩ := ih (w.new d).2 o ho
      exact ⟨d1, List.mem_cons_of_mem _ hd1, by simpa [newAll] using hk⟩

/-! ## Key translation -/

/-- C1: a key with a slash whose final segment is `<id>_<n>_<size>`, three unsigned decimal
integers with `id` below `2 ^ 64`, resolves to `O + "/"` for the owner `O` of chunk `id`; the
physical key the decorator hands to the backend is `O + "/" + K`, and cutting the first
`len(getOwner(K))` bytes off that physical key gives `K` back. -/
theorem getOwner_chunk_key {β : Type} (p : withOwner β) (dir d1 d2 d3 O : GoString)
    (h1 : isNumber d1 = true) (h2 : isNumber d2 = true) (h3 : isNumber d3 = true)
    (hfit : decVal d1 < 2 ^ 64) (hO : p.m.GetChunkOwner (decVal d1) = O) :
    p.getOwner (dir ++ '/' :: (d1 ++ '_' :: (d2 ++ '_' :: d3))) = O ++ str "/" ∧
    p.getOwner (dir ++ '/' :: (d1 ++ '_' :: (d2 ++ '_' :: d3)))
        ++ (dir ++ '/' :: (d1 ++ '_' :: (d2 ++ '_' :: d3)))
      = O ++ str "/" ++ (dir ++ '/' :: (d1 ++ '_' :: (d2 ++ '_' :: d3))) ∧
    sliceFrom (O ++ str "/" ++ (dir ++ '/' :: (d1 ++ '_' :: (d2 ++ '_' :: d3))))
        (p.getOwner (dir ++ '/' :: (d1 ++ '_' :: (d2 ++ '_' :: d3)))).length
      = some (dir ++ '/' :: (d1 ++ '_' :: (d2 ++ '_' :: d3))) ∧
    (∀ data w, p.Put (dir ++ '/' :: (d1 ++ '_' :: (d2 ++ '_' :: d3))) data w
      = p.os.Put (O ++ str "/" ++ (dir ++ '/' :: (d1 ++ '_' :: (d2 ++ '_' :: d3)))) data w) ∧
    (∀ off limit w, p.Get (dir ++ '/' :: (d1 ++ '_' :: (d2 ++ '_' :: d3))) off limit w
      = p.os.Get (O ++ str "/" ++ (dir ++ '/' :: (d1 ++ '_' :: (d2 ++ '_' :: d3)))) off limit w) ∧
    (∀ w, p.Delete (dir ++ '/' :: (d1 ++ '_' :: (d2 ++ '_' :: d3))) w
      = p.os.Delete (O ++ str "/" ++ (dir ++ '/' :: (d1 ++ '_' :: (d2 ++ '_' :: d3)))) w) := by
  have hn1 := (isNumber_iff d1).1 h1
  have hparse := ParseUint_digits d1 hn1.1 hn1.2 hfit
  have hown : p.getOwner (dir ++ '/' :: (d1 ++ '_' :: (d2 ++ '_' :: d3))) = O ++ str "/" := by
    unfold withOwner.getOwner
    rw [getOwner_of_fields p.m dir d1 d2 d3 (not_mem_of_isNumber d1 h1)
      (not_mem_of_isNumber d2 h2) (not_mem_of_isNumber d3 h3), hparse, hO]
  refine ⟨hown, by rw [hown], ?_, ?_, ?_, ?_⟩
  · rw [hown]; exact sliceFrom_append_length _ _
  · intro data s; simp only [withOwner.Put, hown]
  · intro off limit s; simp only [withOwner.Get, hown]
  · intro s; simp only [withOwner.Delete, hown]

/-- C1, at the key `chunks/0/0/1_0_4194304` with chunk 1 owned by `alice`: the physical key
is `alice/chunks/0/0/1_0_4194304`. -/
theorem getOwner_chunk_key_witness :
    (WithOwnerPrefix memStore ⟨fun n => if n = 1 then str "alice" else str "bob"⟩).getOwner
        (str "chunks/0/0/1_0_4194304") = str "alice/" ∧
    (WithOwnerPrefix memStore ⟨fun n => if n = 1 then str "alice" else str "bob"⟩).getOwner
        (str "chunks/0/0/1_0_4194304") ++ str "chunks/0/0/1_0_4194304"
      = str "alice/chunks/0/0/1_0_4194304" ∧
    sliceFrom (str "alice/chunks/0/0/1_0_4194304") (str "alice/").length
      = some (str "chunks/0/0/1_0_4194304") ∧
    ((WithOwnerPrefix memStore ⟨fun n => if n = 1 then str "alice" else str "bob"⟩).Put
        (str "chunks/0/0/1_0_4194304") (str "data") (emptyWorld [])).2.store
      = [(str "alice/chunks/0/0/1_0_4194304", str "data")] := by
  have h := getOwner_chunk_key
    (WithOwnerPrefix memStore ⟨fun n => if n = 1 then str "alice" else str "bob"⟩)
    (str "chunks/0/0") (str "1") (str "0") (str "4194304") (str "alice")
    (by decide) (by decide) (by decide) (by decide) (by decide)
  exact ⟨h.1, h.2.1, by decide, by decide⟩

/-- C2, as the code has it: `getOwner(K)` is a non-empty owner prefix exactly when `K` has a
slash and what follows its last slash holds exactly two underscores (three `_`-fields, of any
content); for every other key `getOwner(K)` is empty and the backend is called with `K`
itself. -/
theorem getOwner_ne_nil_iff {β : Type} (p : withOwner β) (K : GoString) :
    (p.getOwner K ≠ [] ↔
      ∃ dir seg, K = dir ++ '/' :: seg ∧ '/' ∉ seg ∧ seg.count '_' = 2) ∧
    ((¬ ∃ dir seg, K = dir ++ '/' :: seg ∧ '/' ∉ seg ∧ seg.count '_' = 2) →
      p.getOwner K = [] ∧ p.getOwner K ++ K = K ∧
      (∀ data w, p.Put K data w = p.os.Put K data w) ∧
      (∀ off limit w, p.Get K off limit w = p.os.Get K off limit w)) := by
  have hiff : p.getOwner K ≠ [] ↔
      ∃ dir seg, K = dir ++ '/' :: seg ∧ '/' ∉ seg ∧ seg.count '_' = 2 := by
    unfold withOwner.getOwner
    constructor
    · intro hne
      by_cases hs : '/' ∈ K
      · obtain ⟨a, b, hab, hb⟩ := exists_last_sep K '/' hs
        rw [hab, getOwner_of_last_segment p.m a b hb] at hne
        exact ⟨a, b, hab, hb, (segOwner_ne_nil_iff p.m b).1 hne⟩
      · exact absurd (getOwner_of_no_slash p.m K hs) hne
    · rintro ⟨a, b, hab, hb, hcount⟩
      rw [hab, getOwner_of_last_segment p.m a b hb]
      exact (segOwner_ne_nil_iff p.m b).2 hcount
  refine ⟨hiff, fun hno => ?_⟩
  have hnil : p.getOwner K = [] := by
    by_contra hne
    exact hno (hiff.1 hne)
  refine ⟨hnil, by rw [hnil, List.nil_append], ?_, ?_⟩
  · intro data s; simp only [withOwner.Put, hnil, List.nil_append]
  · intro off limit s; simp only [withOwner.Get, hnil, List.nil_append]

/-- C2, at the key `chunks/0/0/bad`: the prefix is empty, and the content is stored and
read back at the unprefixed path `chunks/0/0/bad`. -/
theorem getOwner_ne_nil_iff_witness :
    (WithOwnerPrefix memStore aliceMeta).getOwner (str "chunks/0/0/bad") = [] ∧
    ((WithOwnerPrefix memStore aliceMeta).Put (str "chunks/0/0/bad") (str "data")
      (emptyWorld [])).2.store = [(str "chunks/0/0/bad", str "data")] ∧
    ((WithOwnerPrefix memStore aliceMeta).Get (str "chunks/0/0/bad") 0 (-1)
      (emptyWorld [(str "chunks/0/0/bad", str "data")])).1 = (some (str "data"), none) := by
  have h := getOwner_ne_nil_iff (WithOwnerPrefix memStore aliceMeta) (str "chunks/0/0/bad")
  have hno : ¬ ∃ dir seg, str "chunks/0/0/bad" = dir ++ '/' :: seg ∧ '/' ∉ seg ∧
      seg.count '_' = 2 := fun hex => (h.1.2 hex) (by decide)
  exact ⟨(h.2 hno).1, by decide, by decide⟩

/-- C2 fails as stated, in both directions: the final segment `a_b_c` of `chunks/0/0/a_b_c`
is not of the shape `<digits>_<digits>_<digits>`, yet the key gets the non-empty prefix
`alice/`; the final segment of `1_0_4194304` is of that shape, yet the key, having no slash,
gets the empty prefix. -/
theorem getOwner_shape_counterexample :
    (chunkShaped (finalSegment (str "chunks/0/0/a_b_c")) = false ∧
      getOwner aliceMeta (str "chunks/0/0/a_b_c") = str "alice/") ∧
    (chunkShaped (finalSegment (str "1_0_4194304")) = true ∧
      getOwner aliceMeta (str "1_0_4194304") = []) ∧
    ¬ (∀ K : GoString, getOwner aliceMeta K ≠ [] ↔ chunkShaped (finalSegment K) = true) := by
  refine ⟨by decide, by decide, fun h => ?_⟩
  exact absurd ((h (str "1_0_4194304")).2 (by decide)) (by decide)

/-- C3, as the code has it: in a key that passes both structural checks, when the first
field fails to parse (it is empty, holds a byte that is no digit, or denotes more than
`2 ^ 64 - 1`), the chunk id is 0 if the digits before the first other byte denote at most
`2 ^ 64 - 1` (the syntax error), and it is `2 ^ 64 - 1` if they denote more (the range
error); the result is the owner of that chunk id followed by a slash. -/
theorem getOwner_parse_failure (m : Meta) (dir f1 f2 f3 : GoString)
    (h1 : '_' ∉ f1 ∧ '/' ∉ f1) (h2 : '_' ∉ f2 ∧ '/' ∉ f2) (h3 : '_' ∉ f3 ∧ '/' ∉ f3)
    (hfail : f1 = [] ∨ (∃ c ∈ f1, isDigit c = false) ∨ 2 ^ 64 ≤ decVal f1) :
    (ParseUint f1).2 ≠ none ∧
    (decVal (f1.takeWhile isDigit) < 2 ^ 64 →
      ParseUint f1 = (0, some NumError.ErrSyntax) ∧
      getOwner m (dir ++ '/' :: (f1 ++ '_' :: (f2 ++ '_' :: f3)))
        = m.GetChunkOwner 0 ++ str "/") ∧
    (2 ^ 64 ≤ decVal (f1.takeWhile isDigit) →
      ParseUint f1 = (2 ^ 64 - 1, some NumError.ErrRange) ∧
      getOwner m (dir ++ '/' :: (f1 ++ '_' :: (f2 ++ '_' :: f3)))
        = m.GetChunkOwner (2 ^ 64 - 1) ++ str "/") := by
  have hown := getOwner_of_fields m dir f1 f2 f3 h1 h2 h3
  have hsplit : f1.takeWhile isDigit ++ f1.dropWhile isDigit = f1 :=
    List.takeWhile_append_dropWhile isDigit f1
  have hds : ∀ x ∈ f1.takeWhile isDigit, isDigit x = true :=
    fun x hx => List.mem_takeWhile_imp hx
  have hsyn : decVal (f1.takeWhile isDigit) < 2 ^ 64 →
      ParseUint f1 = (0, some NumError.ErrSyntax) := by
    intro hfit
    cases hrest : f1.dropWhile isDigit with
    | nil =>
      rw [hrest, List.append_nil] at hsplit
      rcases hfail with h | ⟨c, hc, hcd⟩ | h
      · simp [ParseUint, h]
      · rw [← hsplit] at hc
        rw [hds c hc] at hcd
        exact absurd hcd (by simp)
      · rw [hsplit] at hfit
        omega
    | cons c r =>
      have hc := dropWhile_head_false isDigit f1 r c hrest
      rw [hrest] at hsplit
      rw [← hsplit]
      exact ParseUint_syntax _ r c hds hc hfit
  have hrng : 2 ^ 64 ≤ decVal (f1.takeWhile isDigit) →
      ParseUint f1 = (2 ^ 64 - 1, some NumError.ErrRange) := by
    intro hover
    have := ParseUint_range _ (f1.dropWhile isDigit) hds hover
    rw [hsplit] at this
    exact this
  refine ⟨?_, fun hfit => ?_, fun hover => ?_⟩
  · by_cases hfit : decVal (f1.takeWhile isDigit) < 2 ^ 64
    · rw [hsyn hfit]; simp
    · rw [hrng (by omega)]; simp
  · exact ⟨hsyn hfit, by rw [hown, hsyn hfit]⟩
  · exact ⟨hrng hover, by rw [hown, hrng hover]⟩

/-- C3, at the keys `chunks/0/0/x_0_4194304` (chunk id 0) and
`chunks/0/0/18446744073709551616_0_4194304` (chunk id `2 ^ 64 - 1`). -/
theorem getOwner_parse_failure_witness :
    getOwner zeroMeta (str "chunks/0/0/x_0_4194304") = str "zero/" ∧
    getOwner zeroMeta (str "chunks/0/0/18446744073709551616_0_4194304") = str "other/" := by
  have ha := getOwner_parse_failure zeroMeta (str "chunks/0/0") (str "x") (str "0")
    (str "4194304") (by decide) (by decide) (by decide) (Or.inr (Or.inl ⟨'x', by decide⟩))
  have hb := getOwner_parse_failure zeroMeta (str "chunks/0/0") (str "18446744073709551616")
    (str "0") (str "4194304") (by decide) (by decide) (by decide)
    (Or.inr (Or.inr (by decide)))
  exact ⟨(ha.2.1 (by decide)).2, (hb.2.2 (by decide)).2⟩

/-- C3 fails as stated: the first field of `chunks/0/0/18446744073709551616_0_4194304`
denotes `2 ^ 64`, so it fails to parse, and the chunk id handed to `GetChunkOwner` is
`2 ^ 64 - 1`, not 0; the same holds for `99999999999999999999x`, which also holds a byte
that is no digit. -/
theorem getOwner_overflow_counterexample :
    ParseUint (str "18446744073709551616") = (2 ^ 64 - 1, some NumError.ErrRange) ∧
    getOwner zeroMeta (str "chunks/0/0/18446744073709551616_0_4194304")
      = zeroMeta.GetChunkOwner (2 ^ 64 - 1) ++ str "/" ∧
    getOwner zeroMeta (str "chunks/0/0/18446744073709551616_0_4194304")
      ≠ zeroMeta.GetChunkOwner 0 ++ str "/" ∧
    ParseUint (str "99999999999999999999x") = (2 ^ 64 - 1, some NumError.ErrRange) ∧
    getOwner zeroMeta (str "chunks/0/0/99999999999999999999x_0_4194304")
      ≠ zeroMeta.GetChunkOwner 0 ++ str "/" := by
  decide

/-! ## Round trip through the map backend -/

theorem memLookup_put (key : GoString) (d : Bytes) (w : World MemState) :
    memLookup key (memStore.Put key d w).2.store = some d := by
  simp [memStore, memLookup]

/-- C4: over the map backend and a fixed chunk-owner mapping, `Put(K, d)` through the
decorator followed by `Get(K, 0, -1)` returns `d`, and `Head(K)` returns a descriptor whose
key is `K` itself, although the content is stored under the physical key
`getOwner(K) + K`.  The descriptor is a pointer to a new `obj`; nothing else on the heap and
nothing in the store changes. -/
theorem put_get_head_roundtrip (m : Meta) (K : GoString) (d : Bytes) (w : World MemState) :
    ((WithOwnerPrefix memStore m).Get K 0 (-1)
      ((WithOwnerPrefix memStore m).Put K d w).2).1 = (some d, none) ∧
    (∃ w2, (WithOwnerPrefix memStore m).Head K ((WithOwnerPrefix memStore m).Put K d w).2
        = some ((some (Object.objPtr (some w.next)), none), w2) ∧
      w2.objs w.next = ⟨K, d.length⟩ ∧
      keyOf w2 (some (Object.objPtr (some w.next))) = K ∧
      (∀ x, x ≠ w.next → w2.objs x = w.objs x) ∧
      w2.store = ((WithOwnerPrefix memStore m).Put K d w).2.store) ∧
    memLookup (getOwner m K ++ K) ((WithOwnerPrefix memStore m).Put K d w).2.store
      = some d := by
  have hl := memLookup_put (getOwner m K ++ K) d w
  have hG : (memStore.Get (getOwner m K ++ K) 0 (-1)
      (memStore.Put (getOwner m K ++ K) d w).2).1 = (some d, none) := by
    simp [memStore, memLookup, readRange]
  refine ⟨hG, ?_, hl⟩
  refine ⟨(((memStore.Put (getOwner m K ++ K) d w).2.new
      ⟨getOwner m K ++ K, d.length⟩).2.setKey w.next K), ?_, ?_, ?_, ?_, ?_⟩
  · simp only [withOwner.Head, withOwner.Put, WithOwnerPrefix, withOwner.getOwner]
    simp [memStore, memLookup, stripKey, sliceFrom, World.new, World.setKey]
  · simp [memStore, World.new, World.setKey]
  · simp [keyOf, memStore, World.new, World.setKey]
  · intro x hx
    simp [memStore, World.new, World.setKey, hx]
  · simp [withOwner.Put, WithOwnerPrefix, withOwner.getOwner, memStore, World.new,
      World.setKey]

/-! ## The arguments of the listing calls -/

/-- The two listing methods in terms of the caller's marker `M`: the backend is called with
the prefix `getOwner(M) + prefix` and the marker `if M is empty then "" else getOwner(M) + M`,
`List` strips `len(getOwner(prefix))` and the relay of `ListAll` strips
`len(getOwner(M))`. -/
theorem listing_equations {β : Type} (p : withOwner β) (pfx M : GoString) (limit : Int)
    (w : World β) :
    p.getOwner (if M = [] then [] else p.getOwner M ++ M) = p.getOwner M ∧
    p.List pfx M limit w
      = (stripAll (p.getOwner pfx).length
          (p.os.List (p.getOwner M ++ pfx) (if M = [] then [] else p.getOwner M ++ M)
            limit w).1.1
          (p.os.List (p.getOwner M ++ pfx) (if M = [] then [] else p.getOwner M ++ M)
            limit w).2).map
        (fun w2 =>
          ((p.os.List (p.getOwner M ++ pfx) (if M = [] then [] else p.getOwner M ++ M)
            limit w).1, w2)) ∧
    p.ListAll pfx M w
      = (match p.os.ListAll (p.getOwner M ++ pfx)
            (if M = [] then [] else p.getOwner M ++ M) w with
        | ((r, some err), w1) => some ((r, some err), w1)
        | ((none, none), w1) => some ((some ⟨[], false⟩, none), w1)
        | ((some r, none), w1) =>
          (relay (p.getOwner M).length r.items r.closed w1).map
            (fun x => ((some x.1, none), x.2))) := by
  have h0 : getOwner p.m [] = [] := getOwner_of_no_slash p.m [] (by simp)
  have ht : getOwner p.m (getOwner p.m M ++ M) = getOwner p.m M := getOwner_translated p.m M
  by_cases hM : M = []
  · subst hM
    refine ⟨by simp, ?_, ?_⟩
    · simp only [withOwner.List, withOwner.getOwner, ne_eq, not_true_eq_false, if_false,
        if_true, h0]
      cases stripAll (getOwner p.m pfx).length (p.os.List ([] ++ pfx) [] limit w).1.1
        (p.os.List ([] ++ pfx) [] limit w).2 <;> rfl
    · simp only [withOwner.ListAll, withOwner.getOwner, ne_eq, not_true_eq_false, if_false,
        if_true, h0]
  · refine ⟨by simp only [hM, if_false]; exact ht, ?_, ?_⟩
    · simp only [withOwner.List, withOwner.getOwner, ne_eq, hM, not_false_eq_true, if_true,
        if_false, ht]
      cases stripAll (getOwner p.m pfx).length
        (p.os.List (getOwner p.m M ++ pfx) (getOwner p.m M ++ M) limit w).1.1
        (p.os.List (getOwner p.m M ++ pfx) (getOwner p.m M ++ M) limit w).2 <;> rfl
    · simp only [withOwner.ListAll, withOwner.getOwner, ne_eq, hM, not_false_eq_true, if_true,
        if_false, ht]

/-! ## `List` strips by the owner of the prefix argument -/

/-- Every key the map backend lists begins with the prefix it was asked for. -/
theorem memStore_List_begins (pfx marker : GoString) (limit : Int) (w : World MemState) :
    ∀ o ∈ (memStore.List pfx marker limit w).1.1,
      pfx.isPrefixOf (keyOf (memStore.List pfx marker limit w).2 o) = true := by
  intro o ho
  obtain ⟨d, hd, hk⟩ := newAll_keys ((memListed pfx marker w.store).take limit.toNat) w o ho
  have hk1 : keyOf (memStore.List pfx marker limit w).2 o = d.key := hk
  rw [hk1]
  have hd1 := List.mem_of_mem_take hd
  obtain ⟨e, he, hed⟩ := List.mem_map.1 hd1
  have hsel := (List.mem_filter.1 he).2
  rw [← hed]
  simp only [Bool.and_eq_true] at hsel
  exact hsel.1

/-- C5, what the code does: with an empty prefix argument `List` strips
`len(getOwner(""))`, which is 0, so for every backend, marker and limit it returns the
backend's result as it is, physical keys included (it panics when the result holds a nil
pointer).  For the marker `chunks/0/0/1_0_4194304` of owner `alice` the backend is asked for
the prefix `alice/`, answers with the key `alice/chunks/0/0/2_0_4194304`, and the decorator
returns that key, not `chunks/0/0/2_0_4194304`. -/
theorem List_empty_prefix_unstripped :
    (∀ (β : Type) (p : withOwner β) (M : GoString) (limit : Int) (w : World β),
      p.List [] M limit w
        = if (p.os.List (p.getOwner M) (if M = [] then [] else p.getOwner M ++ M)
              limit w).1.1.any isNilPointer = true then none
          else some (p.os.List (p.getOwner M) (if M = [] then [] else p.getOwner M ++ M)
              limit w)) ∧
    ((memStore.List (str "alice/") (str "alice/chunks/0/0/1_0_4194304") 10
        (emptyWorld [(str "alice/chunks/0/0/2_0_4194304", str "data")])).1
      = ([some (Object.objPtr (some 0))], none) ∧
     (memStore.List (str "alice/") (str "alice/chunks/0/0/1_0_4194304") 10
        (emptyWorld [(str "alice/chunks/0/0/2_0_4194304", str "data")])).2.objs 0
      = ⟨str "alice/chunks/0/0/2_0_4194304", 4⟩) ∧
    ((WithOwnerPrefix memStore aliceMeta).List [] (str "chunks/0/0/1_0_4194304") 10
        (emptyWorld [(str "alice/chunks/0/0/2_0_4194304", str "data")])).map
        (fun r => (r.1, r.2.objs 0, r.1.1.map (keyOf r.2)))
      = some (([some (Object.objPtr (some 0))], none),
          ⟨str "alice/chunks/0/0/2_0_4194304", 4⟩,
          [str "alice/chunks/0/0/2_0_4194304"]) := by
  refine ⟨?_, by decide, by decide⟩
  intro β p M limit w
  have h0 : p.getOwner [] = [] := getOwner_of_no_slash p.m [] (by simp)
  have h := (listing_equations p [] M limit w).2.1
  rw [h0, List.length_nil, List.append_nil, stripAll_zero] at h
  rw [h]
  by_cases hn : (p.os.List (p.getOwner M) (if M = [] then [] else p.getOwner M ++ M)
      limit w).1.1.any isNilPointer = true
  · simp [hn]
  · simp [hn]

/-- C6, what the code does: `List` slices by the length of the owner prefix of the prefix
argument, which can exceed the length of a key that begins with the physical prefix.  With
no marker, the prefix `chunks/0/0/1_0_4194304` and an owner named by a UUID, the map backend
is asked for the prefix `chunks/0/0/1_0_4194304` and answers with that key, of 22 bytes; the
decorator slices it at 37 and panics, although the map backend only ever lists keys that
begin with the prefix it was asked for. -/
theorem List_slice_out_of_bounds :
    (∀ (pfx marker : GoString) (limit : Int) (w : World MemState),
      ∀ o ∈ (memStore.List pfx marker limit w).1.1,
        pfx.isPrefixOf (keyOf (memStore.List pfx marker limit w).2 o) = true) ∧
    ((memStore.List (str "chunks/0/0/1_0_4194304") [] 10
        (emptyWorld [(str "chunks/0/0/1_0_4194304", str "data")])).1
      = ([some (Object.objPtr (some 0))], none) ∧
     (memStore.List (str "chunks/0/0/1_0_4194304") [] 10
        (emptyWorld [(str "chunks/0/0/1_0_4194304", str "data")])).2.objs 0
      = ⟨str "chunks/0/0/1_0_4194304", 4⟩) ∧
    (str "chunks/0/0/1_0_4194304").isPrefixOf (str "chunks/0/0/1_0_4194304") = true ∧
    ((WithOwnerPrefix memStore uuidMeta).getOwner (str "chunks/0/0/1_0_4194304")).length = 37 ∧
    (str "chunks/0/0/1_0_4194304").length = 22 ∧
    (WithOwnerPrefix memStore uuidMeta).List (str "chunks/0/0/1_0_4194304") [] 10
        (emptyWorld [(str "chunks/0/0/1_0_4194304", str "data")]) = none := by
  refine ⟨memStore_List_begins, by decide, by decide, by decide, by decide, ?_⟩
  exact Option.isNone_iff_eq_none.1 (by decide)

/-! ## The listing relay -/

theorem keyOf_shortenAt_native {β : Type} (ln : Nat) (addrs : List Addr) (w : World β)
    (o : Option Object) (a : Addr) (ho : addrOf o = some a) (ha : a ∈ addrs) :
    keyOf { w with objs := shortenAt ln addrs w.objs } o = (keyOf w o).drop ln := by
  rcases o with _ | (p | p | ⟨k, i⟩)
  · simp [addrOf] at ho
  · simp only [addrOf] at ho; subst ho; simp [keyOf, shortenAt, ha]
  · simp only [addrOf] at ho; subst ho; simp [keyOf, shortenAt, ha]
  · simp [addrOf] at ho

theorem keyOf_of_not_native {β : Type} (w w2 : World β) (o : Option Object)
    (ho : addrOf o = none) : keyOf w2 o = keyOf w o := by
  rcases o with _ | (p | p | ⟨k, i⟩)
  · rfl
  · simp only [addrOf] at ho; subst ho; rfl
  · simp only [addrOf] at ho; subst ho; rfl
  · rfl

/-- C7, as the code has it: when the backend's stream delivers the items `src`, none of them
a nil pointer, the pointers of type `*obj` and `*file` among them pairwise distinct (no
descriptor is delivered twice) and each pointing to a key of at least `len(getOwner(M))`
bytes, the channel that `ListAll` returns delivers the very items of the source, as many and
in the same order, a nil item as nil; the key of every delivered descriptor of type `*obj`
or `*file` has lost exactly its first `len(getOwner(M))` bytes, a descriptor of another
type reports the key it had, nothing else on the heap changes, and the channel is closed
after the last item exactly when the source is. -/
theorem ListAll_relay {β : Type} (p : withOwner β) (pfx M : GoString) (w w1 : World β)
    (src : List (Option Object)) (closed : Bool)
    (hcall : p.os.ListAll (p.getOwner M ++ pfx) (if M = [] then [] else p.getOwner M ++ M) w
      = ((some ⟨src, closed⟩, none), w1))
    (hnil : src.any isNilPointer = false)
    (hdistinct : (nativeAddrs src).Nodup)
    (hlong : ∀ a ∈ nativeAddrs src, (p.getOwner M).length ≤ (w1.objs a).key.length) :
    p.ListAll pfx M w
      = some ((some ⟨src, closed⟩, none),
          { w1 with objs := shortenAt (p.getOwner M).length (nativeAddrs src) w1.objs }) ∧
    (∀ o ∈ src, ∀ a, addrOf o = some a →
      keyOf w1 o = (keyOf w1 o).take (p.getOwner M).length
        ++ keyOf { w1 with objs := shortenAt (p.getOwner M).length (nativeAddrs src) w1.objs } o ∧
      (keyOf { w1 with objs := shortenAt (p.getOwner M).length (nativeAddrs src) w1.objs }
          o).length + (p.getOwner M).length = (keyOf w1 o).length) ∧
    (∀ o ∈ src, addrOf o = none →
      keyOf { w1 with objs := shortenAt (p.getOwner M).length (nativeAddrs src) w1.objs } o
        = keyOf w1 o) ∧
    (∀ a, a ∉ nativeAddrs src →
      shortenAt (p.getOwner M).length (nativeAddrs src) w1.objs a = w1.objs a) ∧
    (∀ a, (shortenAt (p.getOwner M).length (nativeAddrs src) w1.objs a).info
      = (w1.objs a).info) := by
  refine ⟨?_, ?_, ?_, ?_, ?_⟩
  · rw [(listing_equations p pfx M 0 w).2.2, hcall]
    simp only [relay_eq_stripAll,
      stripAll_of_distinct _ src w1 hnil hdistinct hlong, Option.map_some']
  · intro o ho a hoa
    have ha : a ∈ nativeAddrs src := List.mem_filterMap.2 ⟨o, ho, hoa⟩
    have hlen := hlong a ha
    have hk : keyOf w1 o = (w1.objs a).key := by
      rcases o with _ | (q | q | ⟨k, i⟩)
      · simp [addrOf] at hoa
      · simp only [addrOf] at hoa; subst hoa; rfl
      · simp only [addrOf] at hoa; subst hoa; rfl
      · simp [addrOf] at hoa
    rw [keyOf_shortenAt_native _ _ w1 o a hoa ha]
    refine ⟨(List.take_append_drop _ _).symm, ?_⟩
    rw [List.length_drop, hk]
    omega
  · intro o _ hoa
    exact keyOf_of_not_native w1 _ o hoa
  · intro a ha
    simp [shortenAt, ha]
  · intro a
    by_cases ha : a ∈ nativeAddrs src <;> simp [shortenAt, ha]

/-- C7, for the marker `chunks/0/0/1_0_4194304` of owner `alice` and a stream of a `*obj`
descriptor, a nil item and a `*file` descriptor: the three items are delivered, the keys
read through them are without `alice/`, and the channel is closed. -/
theorem ListAll_relay_witness :
    ((WithOwnerPrefix scriptStore aliceMeta).ListAll [] (str "chunks/0/0/1_0_4194304")
        (worldOf { emptyScript with chan := some ⟨[some (Object.objPtr (some 0)), none,
            some (Object.filePtr (some 1))], true⟩ }
          [⟨str "alice/chunks/0/0/2_0_4194304", 4⟩, ⟨str "alice/chunks/0/0/3_0_4194304", 7⟩]
          [])).map
        (fun r => (r.1, r.2.objs 0, r.2.objs 1))
      = some ((some ⟨[some (Object.objPtr (some 0)), none, some (Object.filePtr (some 1))],
            true⟩, none),
          ⟨str "chunks/0/0/2_0_4194304", 4⟩, ⟨str "chunks/0/0/3_0_4194304", 7⟩) := by
  have h := ListAll_relay (WithOwnerPrefix scriptStore aliceMeta) []
    (str "chunks/0/0/1_0_4194304")
    (worldOf { emptyScript with chan := some ⟨[some (Object.objPtr (some 0)), none,
        some (Object.filePtr (some 1))], true⟩ }
      [⟨str "alice/chunks/0/0/2_0_4194304", 4⟩, ⟨str "alice/chunks/0/0/3_0_4194304", 7⟩] [])
    (worldOf { emptyScript with chan := some ⟨[some (Object.objPtr (some 0)), none,
        some (Object.filePtr (some 1))], true⟩ }
      [⟨str "alice/chunks/0/0/2_0_4194304", 4⟩, ⟨str "alice/chunks/0/0/3_0_4194304", 7⟩] [])
    [some (Object.objPtr (some 0)), none, some (Object.filePtr (some 1))] true rfl
    (by decide) (by decide) (by decide)
  rw [h.1]
  decide

/-- C7 fails as stated.  For the marker `chunks/0/0/1_0_4194304` of owner `alice` the relay
strips 6 bytes.  A descriptor of a type other than `*obj` and `*file` with the key
`alice/chunks/0/0/2_0_4194304` is delivered with that key, not shortened.  And a source
that delivers one `*obj` with the key `alice/chunks/0/0/2_0_4194304` twice has its key cut
twice: the second item is delivered with the key `/0/0/2_0_4194304`, shortened by 12
bytes, and the first item, being the same struct, carries that key too once the relay has
run. -/
theorem ListAll_relay_counterexample :
    ((WithOwnerPrefix scriptStore aliceMeta).ListAll [] (str "chunks/0/0/1_0_4194304")
        (worldOf { emptyScript with
          chan := some ⟨[some (Object.other (str "alice/chunks/0/0/2_0_4194304") 0)], true⟩ }
          [] [])).map (fun r => (r.1, r.1.1.map (fun c => c.items.map (keyOf r.2))))
      = some ((some ⟨[some (Object.other (str "alice/chunks/0/0/2_0_4194304") 0)], true⟩, none),
          some [str "alice/chunks/0/0/2_0_4194304"]) ∧
    ((WithOwnerPrefix scriptStore aliceMeta).ListAll [] (str "chunks/0/0/1_0_4194304")
        (worldOf { emptyScript with
          chan := some ⟨[some (Object.objPtr (some 0)), some (Object.objPtr (some 0))], true⟩ }
          [⟨str "alice/chunks/0/0/2_0_4194304", 4⟩] [])).map
        (fun r => (r.1, r.1.1.map (fun c => c.items.map (keyOf r.2))))
      = some ((some ⟨[some (Object.objPtr (some 0)), some (Object.objPtr (some 0))], true⟩,
            none),
          some [str "/0/0/2_0_4194304", str "/0/0/2_0_4194304"]) := by
  decide

/-- C8: `List` and `ListAll` call the backend with the marker
`if M is empty then "" else getOwner(M) + M` and with the prefix `getOwner(M) + prefix`,
the owner prefix being the one of the caller's marker `M`: the code resolves it from the
translated marker, which resolves to the same owner prefix as `M`.  With an empty marker
the prefix reaches the backend unchanged.  The equations hold for every backend; the
recording backend shows the arguments it received. -/
theorem listing_arguments {β : Type} (p : withOwner β) (pfx M : GoString) (limit : Int)
    (w : World β) :
    p.getOwner (p.getOwner M ++ M) = p.getOwner M ∧
    p.getOwner (if M = [] then [] else p.getOwner M ++ M) = p.getOwner M ∧
    p.List pfx M limit w
      = (stripAll (p.getOwner pfx).length
          (p.os.List (p.getOwner M ++ pfx) (if M = [] then [] else p.getOwner M ++ M)
            limit w).1.1
          (p.os.List (p.getOwner M ++ pfx) (if M = [] then [] else p.getOwner M ++ M)
            limit w).2).map
        (fun w2 =>
          ((p.os.List (p.getOwner M ++ pfx) (if M = [] then [] else p.getOwner M ++ M)
            limit w).1, w2)) ∧
    p.ListAll pfx M w
      = (match p.os.ListAll (p.getOwner M ++ pfx)
            (if M = [] then [] else p.getOwner M ++ M) w with
        | ((r, some err), w1) => some ((r, some err), w1)
        | ((none, none), w1) => some ((some ⟨[], false⟩, none), w1)
        | ((some r, none), w1) =>
          (relay (p.getOwner M).length r.items r.closed w1).map
            (fun x => ((some x.1, none), x.2))) ∧
    ((WithOwnerPrefix traceStore p.m).List pfx M limit (emptyWorld [])).map
        (fun r => r.2.store)
      = some [⟨p.getOwner M ++ pfx, if M = [] then [] else p.getOwner M ++ M, false⟩] ∧
    ((WithOwnerPrefix traceStore p.m).ListAll pfx M (emptyWorld [])).map
        (fun r => r.2.store)
      = some [⟨p.getOwner M ++ pfx, if M = [] then [] else p.getOwner M ++ M, true⟩] ∧
    (M = [] → p.getOwner M ++ pfx = pfx) := by
  have heq := listing_equations p pfx M limit w
  have hL := (listing_equations (WithOwnerPrefix traceStore p.m) pfx M limit
    (emptyWorld [])).2.1
  have hA := (listing_equations (WithOwnerPrefix traceStore p.m) pfx M limit
    (emptyWorld [])).2.2
  refine ⟨getOwner_translated p.m M, heq.1, heq.2.1, heq.2.2, ?_, ?_, ?_⟩
  · rw [hL]
    simp [WithOwnerPrefix, traceStore, stripAll, withOwner.getOwner, emptyWorld]
  · rw [hA]
    simp [WithOwnerPrefix, traceStore, withOwner.getOwner, emptyWorld, relay]
  · intro hM
    subst hM
    have h0 : p.getOwner [] = [] := getOwner_of_no_slash p.m [] (by simp)
    rw [h0, List.nil_append]

/-- C8, for the marker `chunks/0/0/1_0_4194304` of owner `alice` and the prefix `chunks/`:
the backend receives the prefix `alice/chunks/` and the marker
`alice/chunks/0/0/1_0_4194304`; with no marker it receives the prefix `chunks/`. -/
theorem listing_arguments_witness :
    ((WithOwnerPrefix traceStore aliceMeta).List (str "chunks/")
        (str "chunks/0/0/1_0_4194304") 10 (emptyWorld [])).map (fun r => r.2.store)
      = some [⟨str "alice/chunks/", str "alice/chunks/0/0/1_0_4194304", false⟩] ∧
    ((WithOwnerPrefix traceStore aliceMeta).ListAll (str "chunks/")
        (str "chunks/0/0/1_0_4194304") (emptyWorld [])).map (fun r => r.2.store)
      = some [⟨str "alice/chunks/", str "alice/chunks/0/0/1_0_4194304", true⟩] ∧
    ((WithOwnerPrefix traceStore aliceMeta).ListAll (str "chunks/") []
        (emptyWorld [])).map (fun r => r.2.store)
      = some [⟨str "chunks/", [], true⟩] := by
  have h := listing_arguments (WithOwnerPrefix traceStore aliceMeta) (str "chunks/")
    (str "chunks/0/0/1_0_4194304") 10 (emptyWorld [])
  exact ⟨h.2.2.2.2.1, h.2.2.2.2.2.1, by decide⟩

/-! ## Pending uploads -/

/-- The method `ListUploads` returns, with the backend's results, when they are non-nil,
pairwise distinct pointers to keys long enough to be sliced. -/
theorem ListUploads_returns {β : Type} (p : withOwner β) (marker : GoString) (w : World β)
    (hnil : none ∉ (p.os.ListUploads marker w).1.1)
    (hd : ((p.os.ListUploads marker w).1.1.filterMap id).Nodup)
    (hlong : ∀ a ∈ (p.os.ListUploads marker w).1.1.filterMap id,
      (p.getOwner marker).length ≤ ((p.os.ListUploads marker w).2.parts a).Key.length) :
    ∃ w2, p.ListUploads marker w
      = some (((p.os.ListUploads marker w).1.1, (p.os.ListUploads marker w).1.2.1,
          (p.os.ListUploads marker w).1.2.2), w2) := by
  have hlong1 : ∀ a, some a ∈ (p.os.ListUploads marker w).1.1 →
      (p.getOwner marker).length ≤ ((p.os.ListUploads marker w).2.parts a).Key.length :=
    fun a ha => hlong a (List.mem_filterMap.2 ⟨some a, ha, rfl⟩)
  simp only [withOwner.ListUploads, stripParts_of_distinct _ _ _ hnil hd hlong1]
  exact ⟨_, rfl⟩

/-- C9, as the code has it: `ListUploads(M)` calls the backend with `M` itself; when the
part pointers the backend returns are not nil and pairwise distinct and each points to a
key of at least `len(getOwner(M))` bytes, it returns the backend's next marker and error as
they are and the same parts in the same order, the key of each having lost exactly its
first `len(getOwner(M))` bytes and nothing else having changed; with a marker that resolves
to the empty prefix the parts are returned as they are. -/
theorem ListUploads_strips {β : Type} (p : withOwner β) (M : GoString) (w w1 : World β)
    (parts : Slice (Option Addr)) (next : GoString) (err : Option GoError)
    (hcall : p.os.ListUploads M w = ((parts, next, err), w1))
    (hnil : none ∉ parts)
    (hdistinct : (parts.filterMap id).Nodup)
    (hlong : ∀ a ∈ parts.filterMap id, (p.getOwner M).length ≤ (w1.parts a).Key.length) :
    p.ListUploads M w
      = some ((parts, next, err),
          { w1 with parts :=
              shortenPartsAt (p.getOwner M).length (parts.filterMap id) w1.parts }) ∧
    (∀ a ∈ parts.filterMap id,
      (w1.parts a).Key = (w1.parts a).Key.take (p.getOwner M).length
        ++ (shortenPartsAt (p.getOwner M).length (parts.filterMap id) w1.parts a).Key ∧
      (shortenPartsAt (p.getOwner M).length (parts.filterMap id) w1.parts a).Key.length
        + (p.getOwner M).length = (w1.parts a).Key.length ∧
      (shortenPartsAt (p.getOwner M).length (parts.filterMap id) w1.parts a).UploadID
        = (w1.parts a).UploadID ∧
      (shortenPartsAt (p.getOwner M).length (parts.filterMap id) w1.parts a).Created
        = (w1.parts a).Created) ∧
    (∀ a, a ∉ parts.filterMap id →
      shortenPartsAt (p.getOwner M).length (parts.filterMap id) w1.parts a = w1.parts a) ∧
    (p.getOwner M = [] → p.ListUploads M w = some ((parts, next, err), w1)) := by
  have hlong1 : ∀ a, some a ∈ parts → (p.getOwner M).length ≤ (w1.parts a).Key.length :=
    fun a ha => hlong a (List.mem_filterMap.2 ⟨some a, ha, rfl⟩)
  refine ⟨?_, ?_, ?_, ?_⟩
  · simp only [withOwner.ListUploads, hcall,
      stripParts_of_distinct _ parts w1 hnil hdistinct hlong1]
  · intro a ha
    have hlen := hlong a ha
    refine ⟨?_, ?_, ?_, ?_⟩
    · simp [shortenPartsAt, ha]
    · simp only [shortenPartsAt, ha, if_true, List.length_drop]; omega
    · simp [shortenPartsAt, ha]
    · simp [shortenPartsAt, ha]
  · intro a ha
    simp [shortenPartsAt, ha]
  · intro hM
    simp only [withOwner.ListUploads, hcall, hM, List.length_nil,
      stripParts_zero parts w1 hnil]

/-- C9, for the marker `chunks/0/0/1_0_4194304` of owner `alice` and a backend that answers
with one part, a next marker and an error. -/
theorem ListUploads_strips_witness :
    ((WithOwnerPrefix scriptStore aliceMeta).ListUploads (str "chunks/0/0/1_0_4194304")
        (worldOf { emptyScript with
            pending := [some 0], nextMarker := str "n", err := some errBackend }
          [] [⟨str "alice/chunks/0/0/2_0_4194304", str "u1", 7⟩])).map
        (fun r => (r.1, r.2.parts 0))
      = some (([some 0], str "n", some errBackend),
          ⟨str "chunks/0/0/2_0_4194304", str "u1", 7⟩) := by
  have h := ListUploads_strips (WithOwnerPrefix scriptStore aliceMeta)
    (str "chunks/0/0/1_0_4194304")
    (worldOf { emptyScript with
        pending := [some 0], nextMarker := str "n", err := some errBackend }
      [] [⟨str "alice/chunks/0/0/2_0_4194304", str "u1", 7⟩])
    (worldOf { emptyScript with
        pending := [some 0], nextMarker := str "n", err := some errBackend }
      [] [⟨str "alice/chunks/0/0/2_0_4194304", str "u1", 7⟩])
    [some 0] (str "n") (some errBackend) rfl (by decide) (by decide) (by decide)
  rw [h.1]
  decide

/-- C9 fails as stated: for the marker `chunks/0/0/1_0_4194304` of owner `alice` the keys
are sliced at 6; when the backend, which was given the marker untranslated, answers with a
part whose key is `x`, the slice expression panics and nothing is returned. -/
theorem ListUploads_short_key_counterexample :
    (scriptStore.ListUploads (str "chunks/0/0/1_0_4194304")
        (worldOf { emptyScript with pending := [some 0] } []
          [⟨str "x", str "u1", 7⟩])).1 = ([some 0], [], none) ∧
    (worldOf { emptyScript with pending := [some 0] } []
        [⟨str "x", str "u1", 7⟩]).parts 0 = ⟨str "x", str "u1", 7⟩ ∧
    ((WithOwnerPrefix scriptStore aliceMeta).getOwner (str "chunks/0/0/1_0_4194304")).length
      = 6 ∧
    ((WithOwnerPrefix scriptStore aliceMeta).ListUploads (str "chunks/0/0/1_0_4194304")
        (worldOf { emptyScript with pending := [some 0] } []
          [⟨str "x", str "u1", 7⟩])).isNone = true := by
  decide

/-! ## Errors of the backend -/

/-- C10, as the code has it: when the backend's call returns the error `e`, each of `Create`,
`Head`, `Get`, `Put`, `Delete`, `ListAll`, `CreateMultipartUpload`, `UploadPart` and
`CompleteUpload` returns exactly `e`; `Head` returns `(nil, e)` and `ListAll` returns `e`
with the backend's own channel value.  `List` and `ListUploads` rewrite the results that
came with the error before they return it, so they return exactly `e` when those results
hold no nil pointer, their pointers are pairwise distinct and each points to a key long
enough to be sliced (in particular when there are no results). -/
theorem backend_error_returned {β : Type} (p : withOwner β) (e : GoError)
    (key uploadID pfx marker : GoString) (off limit num : Int) (data body : Bytes)
    (parts : Slice Part) (w : World β) :
    ((p.os.Create w).1 = some e → (p.Create w).1 = some e) ∧
    ((p.os.Head (p.getOwner key ++ key) w).1.2 = some e →
      p.Head key w = some ((none, some e), (p.os.Head (p.getOwner key ++ key) w).2)) ∧
    ((p.os.Get (p.getOwner key ++ key) off limit w).1.2 = some e →
      (p.Get key off limit w).1.2 = some e) ∧
    ((p.os.Put (p.getOwner key ++ key) data w).1 = some e →
      (p.Put key data w).1 = some e) ∧
    ((p.os.Delete (p.getOwner key ++ key) w).1 = some e → (p.Delete key w).1 = some e) ∧
    ((p.os.List (p.getOwner marker ++ pfx)
        (if marker = [] then [] else p.getOwner marker ++ marker) limit w).1.2 = some e →
      (p.os.List (p.getOwner marker ++ pfx)
        (if marker = [] then [] else p.getOwner marker ++ marker) limit w).1.1.any
          isNilPointer = false →
      (nativeAddrs (p.os.List (p.getOwner marker ++ pfx)
        (if marker = [] then [] else p.getOwner marker ++ marker) limit w).1.1).Nodup →
      (∀ a ∈ nativeAddrs (p.os.List (p.getOwner marker ++ pfx)
          (if marker = [] then [] else p.getOwner marker ++ marker) limit w).1.1,
        (p.getOwner pfx).length ≤ ((p.os.List (p.getOwner marker ++ pfx)
          (if marker = [] then [] else p.getOwner marker ++ marker) limit w).2.objs
            a).key.length) →
      ∃ w2, p.List pfx marker limit w = some (((p.os.List (p.getOwner marker ++ pfx)
        (if marker = [] then [] else p.getOwner marker ++ marker) limit w).1.1, some e),
          w2)) ∧
    ((p.os.ListAll (p.getOwner marker ++ pfx)
        (if marker = [] then [] else p.getOwner marker ++ marker) w).1.2 = some e →
      p.ListAll pfx marker w = some (p.os.ListAll (p.getOwner marker ++ pfx)
        (if marker = [] then [] else p.getOwner marker ++ marker) w)) ∧
    ((p.os.CreateMultipartUpload (p.getOwner key ++ key) w).1.2 = some e →
      (p.CreateMultipartUpload key w).1.2 = some e) ∧
    ((p.os.UploadPart (p.getOwner key ++ key) uploadID num body w).1.2 = some e →
      (p.UploadPart key uploadID num body w).1.2 = some e) ∧
    ((p.os.CompleteUpload (p.getOwner key ++ key) uploadID parts w).1 = some e →
      (p.CompleteUpload key uploadID parts w).1 = some e) ∧
    ((p.os.ListUploads marker w).1.2.2 = some e →
      none ∉ (p.os.ListUploads marker w).1.1 →
      ((p.os.ListUploads marker w).1.1.filterMap id).Nodup →
      (∀ a ∈ (p.os.ListUploads marker w).1.1.filterMap id,
        (p.getOwner marker).length ≤ ((p.os.ListUploads marker w).2.parts a).Key.length) →
      ∃ w2, p.ListUploads marker w
        = some (((p.os.ListUploads marker w).1.1, (p.os.ListUploads marker w).1.2.1, some e),
          w2)) := by
  have hargs := listing_equations p pfx marker limit w
  refine ⟨fun h => h, ?_, fun h => h, fun h => h, fun h => h, ?_, ?_, fun h => h, fun h => h,
    fun h => h, ?_⟩
  · intro h
    unfold withOwner.Head
    rcases hr : p.os.Head (p.getOwner key ++ key) w with ⟨⟨o, err⟩, w1⟩
    rw [hr] at h
    simp only at h
    subst h
    rfl
  · intro h hnil hd hlong
    rw [hargs.2.1, stripAll_of_distinct _ _ _ hnil hd hlong, Option.map_some', ← h]
    exact ⟨_, rfl⟩
  · intro h
    rw [hargs.2.2]
    rcases hr : p.os.ListAll (p.getOwner marker ++ pfx)
      (if marker = [] then [] else p.getOwner marker ++ marker) w with ⟨⟨r, err⟩, w1⟩
    rw [hr] at h
    simp only at h
    subst h
    cases r <;> rfl
  · intro h hnil hd hlong
    obtain ⟨w2, hs⟩ := ListUploads_returns p marker w hnil hd hlong
    rw [hs, ← h]
    exact ⟨w2, rfl⟩

/-- C10, at a backend that answers every call with the error `errBackend`, and `List` and
`ListUploads` with one result beside it. -/
theorem backend_error_returned_witness :
    ((WithOwnerPrefix scriptStore aliceMeta).Create
      (worldOf { emptyScript with
          err := some errBackend, objs := [some (Object.objPtr (some 0))], pending := [some 0] }
        [⟨str "chunks/a", 1⟩] [⟨str "alice/chunks/0/0/2_0_4194304", str "u1", 7⟩])).1
      = some errBackend ∧
    ((WithOwnerPrefix scriptStore aliceMeta).Head (str "chunks/0/0/1_0_4194304")
      (worldOf { emptyScript with
          err := some errBackend, objs := [some (Object.objPtr (some 0))], pending := [some 0] }
        [⟨str "chunks/a", 1⟩] [⟨str "alice/chunks/0/0/2_0_4194304", str "u1", 7⟩])).map
      (fun r => r.1) = some (none, some errBackend) ∧
    ((WithOwnerPrefix scriptStore aliceMeta).Get (str "chunks/0/0/1_0_4194304") 0 (-1)
      (worldOf { emptyScript with
          err := some errBackend, objs := [some (Object.objPtr (some 0))], pending := [some 0] }
        [⟨str "chunks/a", 1⟩] [⟨str "alice/chunks/0/0/2_0_4194304", str "u1", 7⟩])).1.2
      = some errBackend ∧
    ((WithOwnerPrefix scriptStore aliceMeta).List (str "chunks/") [] (-1)
      (worldOf { emptyScript with
          err := some errBackend, objs := [some (Object.objPtr (some 0))], pending := [some 0] }
        [⟨str "chunks/a", 1⟩] [⟨str "alice/chunks/0/0/2_0_4194304", str "u1", 7⟩])).map
      (fun r => r.1) = some ([some (Object.objPtr (some 0))], some errBackend) ∧
    ((WithOwnerPrefix scriptStore aliceMeta).ListAll (str "chunks/") []
      (worldOf { emptyScript with
          err := some errBackend, objs := [some (Object.objPtr (some 0))], pending := [some 0] }
        [⟨str "chunks/a", 1⟩] [⟨str "alice/chunks/0/0/2_0_4194304", str "u1", 7⟩])).map
      (fun r => r.1) = some (none, some errBackend) ∧
    ((WithOwnerPrefix scriptStore aliceMeta).ListUploads (str "chunks/0/0/1_0_4194304")
      (worldOf { emptyScript with
          err := some errBackend, objs := [some (Object.objPtr (some 0))], pending := [some 0] }
        [⟨str "chunks/a", 1⟩] [⟨str "alice/chunks/0/0/2_0_4194304", str "u1", 7⟩])).map
      (fun r => r.1) = some ([some 0], [], some errBackend) := by
  have h := backend_error_returned (WithOwnerPrefix scriptStore aliceMeta) errBackend
    (str "chunks/0/0/1_0_4194304") (str "u1") (str "chunks/") [] 0 (-1) 1 (str "data")
    (str "body") []
    (worldOf { emptyScript with
        err := some errBackend, objs := [some (Object.objPtr (some 0))], pending := [some 0] }
      [⟨str "chunks/a", 1⟩] [⟨str "alice/chunks/0/0/2_0_4194304", str "u1", 7⟩])
  obtain ⟨hCreate, hHead, hGet, _, _, hList, hListAll, _, _, _, _⟩ := h
  obtain ⟨w2, hw2⟩ := hList rfl (by decide) (by decide) (by decide)
  refine ⟨hCreate rfl, ?_, hGet rfl, ?_, ?_, by decide⟩
  · rw [hHead rfl]; rfl
  · rw [hw2]; rfl
  · rw [hListAll rfl]; rfl

/-- C10 fails as stated for `List` and `ListUploads`: a backend that returns the error
`errBackend` together with a result makes them panic in the loop over the results, before
the error is returned.  `List` with the prefix `chunks/0/0/1_0_4194304`, no marker and an
owner named by a UUID slices the key `chunks/0/0/1_0_4194304`, of 22 bytes, at 37;
`ListUploads` with the marker `chunks/0/0/1_0_4194304` of owner `alice` slices the key `x`
at 6. -/
theorem backend_error_counterexample :
    ((scriptStore.List (str "chunks/0/0/1_0_4194304") [] 10
        (worldOf { emptyScript with
            err := some errBackend, objs := [some (Object.objPtr (some 0))] }
          [⟨str "chunks/0/0/1_0_4194304", 4⟩] [])).1
      = ([some (Object.objPtr (some 0))], some errBackend)) ∧
    ((WithOwnerPrefix scriptStore uuidMeta).List (str "chunks/0/0/1_0_4194304") [] 10
        (worldOf { emptyScript with
            err := some errBackend, objs := [some (Object.objPtr (some 0))] }
          [⟨str "chunks/0/0/1_0_4194304", 4⟩] [])).isNone = true ∧
    ((scriptStore.ListUploads (str "chunks/0/0/1_0_4194304")
        (worldOf { emptyScript with err := some errBackend, pending := [some 0] }
          [] [⟨str "x", str "u1", 7⟩])).1
      = ([some 0], [], some errBackend)) ∧
    ((WithOwnerPrefix scriptStore aliceMeta).ListUploads (str "chunks/0/0/1_0_4194304")
        (worldOf { emptyScript with err := some errBackend, pending := [some 0] }
          [] [⟨str "x", str "u1", 7⟩])).isNone = true := by
  decide

end OwnerPrefix
